import Mathlib

/-!
Verification of the CS228FinalProject training pipeline
(src/CS228Project/train.py and src/CS228Project/augmentation.py).

The Python code is shallowly embedded: pandas dataframes become lists of
structures, the third-party shuffling inside sklearn train_test_split is
abstracted by an explicit permutation parameter, floating point ratios are
modelled exactly by rationals, and the external synonym augmenter of nlpaug
is an opaque function parameter.  Python runtime failures (AttributeError,
KeyError, NameError, ValueError, ZeroDivisionError) are modelled with
Except or explicit error values.  Text handling covers the ASCII fragment
of the Python regex semantics (the classes \\W and [A-Za-z], str.lower).
-/

namespace CS228

/-- ESCI relevance labels, the domain of the esci_label column.  The keys
of esci_label2gain in train.py; "exact" is a Lean keyword, hence exact'. -/
inductive Esci
  | exact'
  | substitute
  | complement
  | irrelevant
deriving DecidableEq, Repr, Inhabited

/-- Gain table of train.py (esci_label2gain): exact 1.0, substitute 0.1,
complement 0.01, irrelevant 0.0, the Python floats modelled as exact
rationals. -/
def esci_label2gain : Esci → ℚ
  | .exact' => 1
  | .substitute => 1/10
  | .complement => 1/100
  | .irrelevant => 0

/-- One row of the pairs CSV (columns query_id, query, query_locale,
esci_label, product_id used by train.py). -/
structure PairRow where
  query_id : Nat
  query : String
  query_locale : String
  esci_label : Esci
  product_id : String
deriving DecidableEq, Repr, Inhabited

/-- One row of the product catalogue CSV (columns product_id,
product_title, product_locale); a missing title (NaN) is none. -/
structure CatRow where
  product_id : String
  product_title : Option String
  product_locale : String
deriving DecidableEq, Repr, Inhabited

/-- One row of the joined dataframe df after train.py selects the columns
query_id, query, product_title, gain, esci_label. -/
structure Row where
  query_id : Nat
  query : String
  product_title : String
  gain : ℚ
  esci_label : Esci
deriving DecidableEq, Repr, Inhabited

/-- Python runtime errors that the pipeline can raise. -/
inductive PyErr
  | attributeError (attr : String)
  | keyError (key : String)
  | nameError (v : String)
  | valueError (msg : String)
  | zeroDivisionError
deriving DecidableEq, Repr

/-- The left merge of train.py: for each pairs row, every catalogue row
with equal product_id and locale contributes one merged row; with no match
the title is none (NaN), as with pandas how='left'. -/
def mergeTitles (pairs : List PairRow) (cat : List CatRow) :
    List (PairRow × Option String) :=
  pairs.flatMap (fun p =>
    let ms := cat.filter (fun c =>
      c.product_id == p.product_id && c.product_locale == p.query_locale)
    if ms.isEmpty then [(p, none)] else ms.map (fun c => (p, c.product_title)))

/-- Steps 1 of train.py main: filter both inputs to the locale, left-join,
drop rows whose product_title is missing, and attach the gain column
computed from esci_label via esci_label2gain. -/
def buildDf (pairs : List PairRow) (cat : List CatRow) (locale : String) :
    List Row :=
  let p := pairs.filter (fun r => r.query_locale == locale)
  let c := cat.filter (fun r => r.product_locale == locale)
  (mergeTitles p c).filterMap (fun pc =>
    pc.2.map (fun t =>
      { query_id := pc.1.query_id
        query := pc.1.query
        product_title := t
        gain := esci_label2gain pc.1.esci_label
        esci_label := pc.1.esci_label }))

/-- Distinct values in first-appearance order, as pandas Series.unique. -/
def uniqueFirst {α : Type} [DecidableEq α] : List α → List α
  | [] => []
  | x :: xs => x :: uniqueFirst (xs.filter (fun y => y ≠ x))
termination_by l => l.length
decreasing_by
  simp only [List.length_cons]
  exact Nat.lt_succ_of_le (List.length_filter_le _ _)

/-- The distinct query ids of the joined dataframe
(df[col_query_id].unique() in train.py). -/
def listQueryId (pairs : List PairRow) (cat : List CatRow) (locale : String) :
    List Nat :=
  uniqueFirst ((buildDf pairs cat locale).map (·.query_id))

/-- Steps 1 of train.py main up to the train/dev split.  The sklearn call
train_test_split(list_query_id, test_size=dev_size, random_state=...)
shuffles the distinct ids and returns the first ceil(test_size * n) of the
shuffled array as the dev ids and the rest as the train ids; the shuffled
array is the parameter perm, the ratio arithmetic is exact rational
arithmetic, so ceil(dev_size * n) = n_dev_queries.  Errors: Python raises
ZeroDivisionError computing n_dev_queries / 0 when no query ids remain,
and sklearn raises ValueError when the float test_size is outside the open
interval (0, 1). -/
def buildSplits (pairs : List PairRow) (cat : List CatRow) (locale : String)
    (n_dev_queries : Nat) (perm : List Nat) :
    Except PyErr (List Row × List Row) :=
  let df := buildDf pairs cat locale
  let ids := uniqueFirst (df.map (·.query_id))
  if ids.length = 0 then .error .zeroDivisionError
  else
    let dev_size : ℚ := (n_dev_queries : ℚ) / (ids.length : ℚ)
    if dev_size ≤ 0 ∨ 1 ≤ dev_size then
      .error (.valueError "test_size out of range")
    else
      let list_query_id_dev := perm.take n_dev_queries
      let list_query_id_train := perm.drop n_dev_queries
      let df_train := df.filter (fun r => decide (r.query_id ∈ list_query_id_train))
      let df_dev := df.filter (fun r => decide (r.query_id ∈ list_query_id_dev))
      .ok (df_train, df_dev)

/-! ### The augmenter (augmentation.py augment_text) -/

/-- One row of the synthetic table new built by augment_text (columns
query, product_title, esci_label and the gain column added afterwards). -/
structure AugRow where
  query : String
  product_title : String
  esci_label : Esci
  gain : ℚ
deriving DecidableEq, Repr, Inhabited

/-- The row the augmentation loop derives from source row src: the query
is the synonym substitution aug of the source query, product_title and
esci_label are inherited, and the gain column is filled from
esci_label2gain. -/
def mkAugRow (src : Row) (aug : String → String) : AugRow :=
  { query := aug src.query
    product_title := src.product_title
    esci_label := src.esci_label
    gain := esci_label2gain src.esci_label }

/-- The synthetic table built by the loop of augment_text.  The loop draws
samples random indices into the full dataframe df (np.random.randint(0,
len(df), samples)); the random draw is the parameter pick, the nlpaug
synonym substitution is the opaque parameter aug.  Iteration k reads row
pick k of df. -/
def augmentRows (df : List Row) (samples : Nat) (pick : Nat → Nat)
    (aug : String → String) : List AugRow :=
  (List.range samples).map (fun k => mkAugRow (df.getD (pick k) default) aug)

/-- The columns of df_train at the augment_text call in train.py main. -/
def trainColumns : List String :=
  ["query_id", "query", "product_title", "gain", "esci_label"]

/-- augment_text of augmentation.py.  Its first dataframe operation is
df_n = df[df.target == 1], and pandas attribute access raises
AttributeError when the dataframe has no column named target; the caller
in train.py passes a dataframe with columns trainColumns.  With the column
present, np.random.randint(0, len(df), samples) raises ValueError for an
empty dataframe; otherwise the function builds the table new via the
sampling loop (the concluding merge of df with new and its shuffle are
computed and discarded in the source, which returns the table new). -/
def augment_text (cols : List String) (df : List Row) (samples : Nat)
    (pick : Nat → Nat) (aug : String → String) : Except PyErr (List AugRow) :=
  if cols.contains "target" = false then .error (.attributeError "target")
  else if df.length = 0 then .error (.valueError "low >= high")
  else .ok (augmentRows df samples pick aug)

/-! ### The dev reranking evaluator input (train.py, locale us branch) -/

/-- One entry of the dev_samples dictionary: the query text and the
positive and negative title sets (Python sets, so duplicates collapse). -/
structure DevEntry where
  query : String
  positive : Finset String
  negative : Finset String
deriving DecidableEq

/-- The state of the dev_samples loop: the query2id dictionary and the
dev_samples dictionary, both insertion-ordered as Python dicts. -/
structure DevState where
  query2id : List (String × Nat)
  dev_samples : List (Nat × DevEntry)

/-- One iteration of the dev_samples loop in train.py: look the query text
up in query2id (assigning the next id on a KeyError), create the entry on
first sight, then add the product title to the positive set when gain > 0
and to the negative set otherwise. -/
def devStep (st : DevState) (r : Row) : DevState :=
  let p :=
    match st.query2id.lookup r.query with
    | some i => (i, st.query2id)
    | none => (st.query2id.length, st.query2id ++ [(r.query, st.query2id.length)])
  let qid := p.1
  let ds : List (Nat × DevEntry) :=
    match st.dev_samples.lookup qid with
    | some _ => st.dev_samples
    | none => st.dev_samples ++ [(qid, ⟨r.query, ∅, ∅⟩)]
  let ds' := ds.map (fun e =>
    if e.1 = qid then
      (e.1,
        if 0 < r.gain then
          { e.2 with positive := insert r.product_title e.2.positive }
        else
          { e.2 with negative := insert r.product_title e.2.negative })
    else e)
  ⟨p.2, ds'⟩

/-- The dev_samples dictionary built from the dev rows. -/
def buildDevSamples (rows : List Row) : List (Nat × DevEntry) :=
  (rows.foldl devStep ⟨[], []⟩).dev_samples

/-- The positive title set of query text q over the rows: the titles of
rows with this query text and gain > 0, duplicates collapsed. -/
def posSet (rows : List Row) (q : String) : Finset String :=
  ((rows.filter (fun r => r.query == q && decide (0 < r.gain))).map
    (·.product_title)).toFinset

/-- The complementary title set: the titles of rows with this query text
whose gain is not positive. -/
def negSet (rows : List Row) (q : String) : Finset String :=
  ((rows.filter (fun r => r.query == q && !(decide (0 < r.gain)))).map
    (·.product_title)).toFinset

/-- The grouping the dev_samples loop computes, described directly: one
entry per distinct query text in first-appearance order, numbered from 0,
holding the positive and negative title sets of that text. -/
def devSpec (rows : List Row) : List (Nat × DevEntry) :=
  (uniqueFirst (rows.map (·.query))).enum.map
    (fun p => (p.1, ⟨p.2, posSet rows p.2, negSet rows p.2⟩))

/-! ### The text normalizer (train.py clean_text, standardize_units, preprocess)

Strings are modelled as lists of characters.  The regular expressions of
the source use only literal alternations and the character classes \\W,
[^>] and [A-Za-z]; each substitution is embedded as a left-to-right scan
replacing leftmost non-overlapping matches, which is the semantics of
Python re.sub and str.replace. -/

/-- Character list underlying a modelled Python string. -/
abbrev Str := List Char

/-- The characters of a Lean string literal, for concrete inputs. -/
def lit (s : String) : Str := s.data

/-- The regex class \\w over the ASCII fragment: letters, digits and the
underscore. -/
def isWordChar (c : Char) : Bool := c.isAlphanum || c == '_'

/-- Python str.replace(pat, rep): replace the leftmost occurrences of pat
left to right, scanning past each replacement.  On a match of the nonempty
pattern at c :: s, the scan continues at (c :: s).drop pat.length, which
is s.drop (pat.length - 1). -/
def replaceAll (pat rep : Str) : Str → Str
  | [] => []
  | c :: s =>
    if pat ≠ [] ∧ pat.isPrefixOf (c :: s) then
      rep ++ replaceAll pat rep (s.drop (pat.length - 1))
    else
      c :: replaceAll pat rep s
termination_by s => s.length
decreasing_by
  · simp only [List.length_cons, List.length_drop]
    omega
  · simp

/-- Helper of splitW: the head of the argument is a separator character;
skip the rest of the separator run, emit the following word, repeat. -/
def splitWAux : Str → List Str
  | [] => []
  | _ :: s =>
    let rest := s.dropWhile (fun c => !(isWordChar c))
    rest.takeWhile isWordChar :: splitWAux (rest.dropWhile isWordChar)
termination_by s => s.length
decreasing_by
  have h1 : (s.dropWhile (fun c => !(isWordChar c))).length ≤ s.length :=
    (List.dropWhile_sublist _).length_le
  have h2 : ((s.dropWhile (fun c => !(isWordChar c))).dropWhile isWordChar).length ≤
      (s.dropWhile (fun c => !(isWordChar c))).length :=
    (List.dropWhile_sublist _).length_le
  simp only [List.length_cons]
  omega

/-- Python re.split over the pattern \\W+: the pieces between maximal runs
of non-word characters, with empty pieces at the ends when the string
starts or ends with a separator (and the single piece [] on the empty
string). -/
def splitW (s : Str) : List Str :=
  s.takeWhile isWordChar :: splitWAux (s.dropWhile isWordChar)

/-- Python re.sub over the pattern [A-Za-z]+ with replacement " \\0 ":
every maximal run of letters is wrapped in a space on each side. -/
def wrapAlpha : Str → Str
  | [] => []
  | c :: s =>
    if c.isAlpha then
      ' ' :: (c :: s.takeWhile Char.isAlpha) ++
        ' ' :: wrapAlpha (s.dropWhile Char.isAlpha)
    else c :: wrapAlpha s
termination_by s => s.length
decreasing_by
  · have h2 : (s.dropWhile Char.isAlpha).length ≤ s.length :=
      (List.dropWhile_sublist _).length_le
    simp only [List.length_cons]
    omega
  · simp

/-- The first alternative of alts that matches at the head of s, tried in
order, as the Python regex alternation does. -/
def firstMatch (alts : List Str) (s : Str) : Option Str :=
  alts.find? (fun a => a.isPrefixOf s)

/-- Python re.sub over an alternation of literal alternatives: scan left
to right, replace each leftmost match by rep and continue after it.  All
alternatives of the source are nonempty; max 1 only forces termination. -/
def subAll (alts : List Str) (rep : Str) : Str → Str
  | [] => []
  | c :: s =>
    match firstMatch alts (c :: s) with
    | some a => rep ++ subAll alts rep (s.drop (a.length - 1))
    | none => c :: subAll alts rep s
termination_by s => s.length
decreasing_by
  · simp only [List.length_cons, List.length_drop]
    omega
  · simp

/-- The unit abbreviation words of the first substitution of
standardize_units. -/
def units1w : List Str := [lit "gal", lit "gals", lit "galon"]

/-- The words of the second substitution. -/
def units2w : List Str := [lit "ft", lit "fts", lit "feets", lit "foot", lit "foots"]

/-- The words of the third substitution. -/
def units3w : List Str := [lit "squares", lit "sq"]

/-- The words of the fourth substitution. -/
def units4w : List Str := [lit "lb", lit "lbs", lit "pounds"]

/-- The words of the fifth substitution. -/
def units5w : List Str := [lit "oz", lit "ozs", lit "ounces", lit "ounc"]

/-- The words of the sixth substitution. -/
def units6w : List Str := [lit "yds", lit "yd", lit "yards"]

/-- A word surrounded by single spaces, the shape of every literal
alternative and of every replacement in standardize_units. -/
def padW (w : Str) : Str := ' ' :: w ++ [' ']

/-- train.py standardize_units: surround the text with spaces, then six
substitutions over space-delimited literal alternations (gal/gals/galon to
gallon, ft/fts/feets/foot/foots to feet, squares/sq to square,
lb/lbs/pounds to pound, oz/ozs/ounces/ounc to ounce, yds/yd/yards to
yard). -/
def standardize_units (s : Str) : Str :=
  let t := ' ' :: s ++ [' ']
  let t := subAll (units1w.map padW) (padW (lit "gallon")) t
  let t := subAll (units2w.map padW) (padW (lit "feet")) t
  let t := subAll (units3w.map padW) (padW (lit "square")) t
  let t := subAll (units4w.map padW) (padW (lit "pound")) t
  let t := subAll (units5w.map padW) (padW (lit "ounce")) t
  subAll (units6w.map padW) (padW (lit "yard")) t

/-- Python str.split() on the strings the pipeline produces, whose only
whitespace is the space character: the maximal space-free pieces, empties
dropped. -/
def tokens : Str → List Str
  | [] => []
  | c :: s =>
    if c = ' ' then tokens s
    else (c :: s.takeWhile (fun d => d != ' ')) ::
      tokens (s.dropWhile (fun d => d != ' '))
termination_by s => s.length
decreasing_by
  · simp
  · have h2 : (s.dropWhile (fun d => d != ' ')).length ≤ s.length :=
      (List.dropWhile_sublist _).length_le
    simp only [List.length_cons]
    omega

/-- train.py clean_text: re.sub removing every occurrence of the pattern
<[^>]+> (a literal <, at least one character other than >, then >).  A
match at a < needs at least one following character other than > (the
takeWhile condition) and a closing > (the dropWhile result nonempty); the
scan then continues after that >. -/
def clean_text : Str → Str
  | [] => []
  | c :: s =>
    if c = '<' ∧ s.takeWhile (fun d => d != '>') ≠ [] ∧
        s.dropWhile (fun d => d != '>') ≠ [] then
      clean_text ((s.dropWhile (fun d => d != '>')).drop 1)
    else c :: clean_text s
termination_by s => s.length
decreasing_by
  · have h1 : (s.dropWhile (fun d => d != '>')).length ≤ s.length :=
      (List.dropWhile_sublist _).length_le
    simp only [List.length_cons, List.length_drop]
    omega
  · simp

/-- train.py preprocess: replace the literal "in." by " inch ", split on
runs of non-word characters, lowercase every word, join with single
spaces, wrap every letter run in spaces, standardize the units, and
collapse the whitespace (join of split). -/
def preprocess (s : Str) : Str :=
  let s1 := replaceAll (lit "in.") (lit " inch ") s
  let words := (splitW s1).map (List.map Char.toLower)
  let joined := List.intercalate [' '] words
  let res := standardize_units (wrapAlpha joined)
  List.intercalate [' '] (tokens res)

/-- The full normalizer of the specification: strip the HTML-like tags
with clean_text, then preprocess.  train.py defines both functions but its
pipeline applies only preprocess; clean_text is never called. -/
def normalize (s : Str) : Str := preprocess (clean_text s)

/-! ### Structure of the text inside preprocess

A text that has passed the letter-wrapping substitution decomposes into
maximal letter runs, each rendered with one inserted space on either side,
and single other characters.  The six substitutions of standardize_units
act on such texts run by run, which is the heart of the unit-replacement
and idempotence arguments. -/

/-- A piece of a wrapped text: a maximal letter run or one other
character. -/
inductive Piece
  | run (r : Str)
  | sep (c : Char)
deriving DecidableEq, Repr

/-- Rendering of one piece back into text; a run carries its two inserted
spaces. -/
def Piece.render : Piece → Str
  | .run r => ' ' :: r ++ [' ']
  | .sep c => [c]

/-- The characters a piece holds. -/
def Piece.chars : Piece → Str
  | .run r => r
  | .sep c => [c]

/-- Rendering of a piece list. -/
def renderP (ps : List Piece) : Str := (ps.map Piece.render).join

/-- Wellformedness: runs are nonempty and all letters, separators are
never letters. -/
def WFPiece : Piece → Prop
  | .run r => r ≠ [] ∧ ∀ c ∈ r, c.isAlpha = true
  | .sep c => c.isAlpha = false

/-- The decomposition of a text into maximal letter runs and remaining
single characters. -/
def piecesOf : Str → List Piece
  | [] => []
  | c :: s =>
    if c.isAlpha then
      .run (c :: s.takeWhile Char.isAlpha) :: piecesOf (s.dropWhile Char.isAlpha)
    else .sep c :: piecesOf s
termination_by s => s.length
decreasing_by
  · have h2 : (s.dropWhile Char.isAlpha).length ≤ s.length :=
      (List.dropWhile_sublist _).length_le
    simp only [List.length_cons]
    omega
  · simp

/-- The effect of one standardize_units substitution on a letter run. -/
def runSub (ws : List Str) (u : Str) (r : Str) : Str := if r ∈ ws then u else r

/-- The per-piece effect of one substitution. -/
def runMap (ws : List Str) (u : Str) : Piece → Piece
  | .run r => .run (runSub ws u r)
  | .sep c => .sep c

/-- The canonical form a letter token reaches through the six
substitutions of standardize_units, applied in their order. -/
def unitCanon (r : Str) : Str :=
  runSub units6w (lit "yard")
    (runSub units5w (lit "ounce")
      (runSub units4w (lit "pound")
        (runSub units3w (lit "square")
          (runSub units2w (lit "feet")
            (runSub units1w (lit "gallon") r)))))

/-- The per-piece composition of the six substitutions. -/
def unitCanonP : Piece → Piece
  | .run r => .run (unitCanon r)
  | .sep c => .sep c

/-- All unit abbreviation words of the fixed table. -/
def unitAbbrevWords : List Str :=
  units1w ++ units2w ++ units3w ++ units4w ++ units5w ++ units6w

/-- The token list of a piece list: a run is a token of its own (its two
inserted spaces delimit it), consecutive non-space separators build up a
pending token, and spaces flush the pending token. -/
def tokensPAux : Str → List Piece → List Str
  | t, [] => if t = [] then [] else [t]
  | t, .run r :: ps => (if t = [] then [] else [t]) ++ r :: tokensPAux [] ps
  | t, .sep c :: ps =>
    if c = ' ' then (if t = [] then [] else [t]) ++ tokensPAux [] ps
    else tokensPAux (t ++ [c]) ps

/-- The text of preprocess right before standardize_units: replace "in.",
split on non-word runs, lowercase, join with single spaces and wrap the
letter runs. -/
def preJoin (s : Str) : Str :=
  wrapAlpha (List.intercalate [' ']
    ((splitW (replaceAll (lit "in.") (lit " inch ") s)).map (List.map Char.toLower)))

/-- A character the preprocess pipeline can emit inside a token: a word
character fixed by lowercasing. -/
def goodChar (c : Char) : Bool := isWordChar c && (Char.toLower c == c)

/-- The pieces a single preprocess token contributes when the wrapped text
is rebuilt: an all-letter token is one run, any other token is its
characters as separators. -/
def tokenPieces (t : Str) : List Piece :=
  if t.all Char.isAlpha then [.run t] else t.map Piece.sep

/-- The piece list of a token list joined by single spaces. -/
def joinPieces : List Str → List Piece
  | [] => []
  | [t] => tokenPieces t
  | t :: ts => tokenPieces t ++ .sep ' ' :: joinPieces ts

/-- A good token of normalized text: nonempty, made of word characters
that ASCII lowercasing fixes, and either all letters or letter-free. -/
def GoodTok (t : Str) : Prop :=
  t ≠ [] ∧ (∀ c ∈ t, isWordChar c = true ∧ Char.toLower c = c) ∧
    ((∀ c ∈ t, c.isAlpha = true) ∨ (∀ c ∈ t, c.isAlpha = false))

/-- The dictionary from query text to its first-appearance index, the
contents of query2id after the dev_samples loop. -/
def q2iOf (queries : List String) : List (String × Nat) :=
  (uniqueFirst queries).enum.map (fun p => (p.2, p.1))

/-- The state of the dev_samples loop after processing a prefix of the
dev rows. -/
def stateOf (processed : List Row) : DevState :=
  ⟨q2iOf (processed.map (·.query)), devSpec processed⟩

/-! ### Control flow of the locale-us branch of train.py main -/

/-- The externally visible events of the us branch that persistence is
about: the model.fit call and the model.save call. -/
inductive UsEvent
  | fit
  | save
deriving DecidableEq, Repr

/-- A pandas column selection key: a single column name, or the
parenthesised tuple of names that line 105 of train.py passes where a
doubled bracket list was meant.  pandas looks a key up among the string
column names, and a tuple is not equal to any string name. -/
inductive ColKey
  | name (s : String)
  | tup (names : List String)
deriving DecidableEq, Repr

/-- Membership of a selection key among string-named columns. -/
def keyInCols (cols : List String) : ColKey → Bool
  | .name s => cols.contains s
  | .tup _ => false

/-- The statements of the locale-us branch of train.py main, abstracted to
what each one can raise: plain assignments, the augment_text call (which
raises AttributeError on the missing target column), the bracketless tuple
column selection of line 105 (KeyError when the key is not a column), the
model.fit and model.save calls, and the final evaluator construction of
line 164, which reads the never-assigned name test_samples. -/
inductive UsStmt
  | assign (v : String)
  | augmentAssign (v : String)
  | selectAssign (v : String) (key : ColKey)
  | fitStmt
  | saveStmt
  | readName (v : String)
deriving DecidableEq, Repr

/-- Run a statement list: the environment is the list of assigned names,
the event list records the fit and save calls performed; execution stops
at the first error, as an uncaught Python exception stops main. -/
def runStmts : List UsStmt → List String → List UsEvent →
    List UsEvent × Option PyErr
  | [], _, evs => (evs, none)
  | stmt :: rest, env, evs =>
    match stmt with
    | .assign v => runStmts rest (env ++ [v]) evs
    | .augmentAssign v =>
      if trainColumns.contains "target" then runStmts rest (env ++ [v]) evs
      else (evs, some (.attributeError "target"))
    | .selectAssign v key =>
      if keyInCols trainColumns key then runStmts rest (env ++ [v]) evs
      else (evs, some (.keyError "tuple of column names"))
    | .fitStmt => runStmts rest env (evs ++ [.fit])
    | .saveStmt => runStmts rest env (evs ++ [.save])
    | .readName v =>
      if env.contains v then runStmts rest env evs
      else (evs, some (.nameError v))

/-- The names main has assigned before entering the locale-us branch. -/
def initialEnv : List String :=
  ["parser", "args", "col_query_id", "col_query", "col_query_locale",
   "col_esci_label", "col_product_id", "col_product_title",
   "col_product_locale", "esci_label2gain", "col_gain", "device", "df",
   "df_product_catalogue", "list_query_id", "dev_size",
   "list_query_id_train", "list_query_id_dev", "df_train", "df_dev"]

/-- The locale-us branch of train.py main in source order (lines 102-165):
the two preprocess re-assignments of df_train columns, the augment_text
call, the tuple column selection, the concat, the data loader and
evaluator preparations, the model set-up, model.fit, model.save, and the
final CECorrelationEvaluator.from_input_examples(test_samples, ...). -/
def usProgram : List UsStmt :=
  [.assign "df_train",
   .assign "df_train",
   .augmentAssign "augmented_text",
   .selectAssign "df_train"
     (.tup ["query", "product_title", "esci_label", "gain"]),
   .assign "df_train",
   .assign "train_samples",
   .assign "train_dataloader",
   .assign "dev_samples",
   .assign "query2id",
   .assign "evaluator",
   .assign "model_name",
   .assign "num_epochs",
   .assign "num_labels",
   .assign "max_length",
   .assign "default_activation_function",
   .assign "model",
   .assign "loss_fct",
   .assign "evaluation_steps",
   .assign "warmup_steps",
   .assign "lr",
   .fitStmt,
   .saveStmt,
   .readName "test_samples",
   .assign "evaluator"]

/-- Whether a statement is one of the two slips that precede training: the
augment_text call reading the missing target column, and the bracketless
tuple selection. -/
def isSlipStmt : UsStmt → Bool
  | .augmentAssign _ => true
  | .selectAssign _ _ => true
  | _ => false

/-- The us branch with the two pre-training slips repaired (removed),
isolating the behaviour of the remaining statements. -/
def usProgramRepaired : List UsStmt :=
  usProgram.filter (fun s => !(isSlipStmt s))

/-! ### Concrete data for witness instantiations -/

/-- A concrete pairs file with two distinct query ids under locale us. -/
def pairsW : List PairRow :=
  [⟨1, "q one", "us", .exact', "p"⟩, ⟨2, "q two", "us", .substitute, "p"⟩]

/-- A concrete catalogue file with the matching product. -/
def catW : List CatRow := [⟨"p", some "a title", "us"⟩]

/-- The joined row of query id 1 in pairsW. -/
def rowW1 : Row := ⟨1, "q one", "a title", 1, .exact'⟩

/-- The joined row of query id 2 in pairsW. -/
def rowW2 : Row := ⟨2, "q two", "a title", 1/10, .substitute⟩

/-- A concrete joined row of the irrelevant class (gain 0). -/
def rowIrrel : Row := ⟨7, "q", "some title", 0, .irrelevant⟩

/-- A concrete training row whose query text is empty. -/
def rowEmptyQ : Row := ⟨3, "", "a title", 0, .irrelevant⟩

/-- Concrete dev rows with distinct query ids but equal query text. -/
def rowsC10 : List Row :=
  [⟨1, "same", "title one", 1, .exact'⟩, ⟨2, "same", "title two", 0, .irrelevant⟩]

/-! ## Theorems -/

/-- Every row of the joined dataframe carries the gain computed from its
esci_label, by construction of the gain column. -/
theorem buildDf_gain (pairs : List PairRow) (cat : List CatRow) (locale : String) :
    ∀ r ∈ buildDf pairs cat locale, r.gain = esci_label2gain r.esci_label := by
  intro r hr
  simp only [buildDf, List.mem_filterMap] at hr
  obtain ⟨⟨p, t⟩, hpc, hmap⟩ := hr
  cases t with
  | none => simp at hmap
  | some t =>
    simp only [Option.map_some'] at hmap
    cases hmap
    rfl

/-- Shape of a successful buildSplits result: the train rows are the
joined rows whose query id lies in the dropped part of the permutation,
the dev rows those whose query id lies in the taken part. -/
theorem buildSplits_ok {pairs : List PairRow} {cat : List CatRow} {locale : String}
    {n_dev : Nat} {perm : List Nat} {tr dv : List Row}
    (hok : buildSplits pairs cat locale n_dev perm = .ok (tr, dv)) :
    tr = (buildDf pairs cat locale).filter
        (fun r => decide (r.query_id ∈ perm.drop n_dev)) ∧
    dv = (buildDf pairs cat locale).filter
        (fun r => decide (r.query_id ∈ perm.take n_dev)) := by
  simp only [buildSplits] at hok
  by_cases h0 : (uniqueFirst ((buildDf pairs cat locale).map (·.query_id))).length = 0
  · rw [if_pos h0] at hok
    exact Except.noConfusion hok
  · rw [if_neg h0] at hok
    by_cases h1 : ((n_dev : ℚ) /
        ((uniqueFirst ((buildDf pairs cat locale).map (·.query_id))).length : ℚ) ≤ 0 ∨
        1 ≤ (n_dev : ℚ) /
        ((uniqueFirst ((buildDf pairs cat locale).map (·.query_id))).length : ℚ))
    · rw [if_pos h1] at hok
      exact Except.noConfusion hok
    · rw [if_neg h1] at hok
      have h2 := Except.ok.inj hok
      injection h2 with htr hdv
      exact ⟨htr.symm, hdv.symm⟩

/-- C2: every row the pipeline processes, the rows of the train and dev
splits and the augmented rows alike, carries gain equal to the image of
its esci_label under the fixed mapping exact 1.0, substitute 0.1,
complement 0.01, irrelevant 0.0. -/
theorem claim_C2_gain_deterministic (pairs : List PairRow) (cat : List CatRow)
    (locale : String) (n_dev : Nat) (perm : List Nat) (tr dv : List Row)
    (hok : buildSplits pairs cat locale n_dev perm = .ok (tr, dv))
    (df : List Row) (n : Nat) (pick : Nat → Nat) (aug : String → String) :
    (∀ r ∈ tr, r.gain = esci_label2gain r.esci_label) ∧
    (∀ r ∈ dv, r.gain = esci_label2gain r.esci_label) ∧
    (∀ a ∈ augmentRows df n pick aug, a.gain = esci_label2gain a.esci_label) := by
  have hdf := buildDf_gain pairs cat locale
  obtain ⟨htr, hdv⟩ := buildSplits_ok hok
  subst htr
  subst hdv
  refine ⟨?_, ?_, ?_⟩
  · intro r hr
    exact hdf r (List.mem_of_mem_filter hr)
  · intro r hr
    exact hdf r (List.mem_of_mem_filter hr)
  · intro a ha
    simp only [augmentRows, List.mem_map] at ha
    obtain ⟨k, -, rfl⟩ := ha
    rfl

/-- Witness for C2: the concrete two-row input, on which buildSplits
succeeds with train row rowW2 and dev row rowW1, and a one-row augmenter
input. -/
theorem claim_C2_gain_deterministic_witness :
    (∀ r ∈ [rowW2], r.gain = esci_label2gain r.esci_label) ∧
    (∀ r ∈ [rowW1], r.gain = esci_label2gain r.esci_label) ∧
    (∀ a ∈ augmentRows [rowIrrel] 1 (fun _ => 0) id,
      a.gain = esci_label2gain a.esci_label) :=
  claim_C2_gain_deterministic pairsW catW "us" 1 [1, 2] [rowW2] [rowW1]
    (by norm_num [buildSplits, buildDf, mergeTitles, uniqueFirst, pairsW,
      catW, rowW1, rowW2, esci_label2gain, List.filterMap_cons, Option.map_some'])
    [rowIrrel] 1 (fun _ => 0) id

/-- C9: the Dataset Builder fails during split computation whenever
n_dev_queries reaches the number of distinct query ids of the filtered
input: the split ratio n_dev_queries / count is then at least 1 and
sklearn rejects the test size (with no distinct ids at all the ratio
itself is a zero division).  In particular it fails whenever n_dev_queries
exceeds the count. -/
theorem claim_C9_split_failure (pairs : List PairRow) (cat : List CatRow)
    (locale : String) (n_dev : Nat) (perm : List Nat)
    (h : (listQueryId pairs cat locale).length ≤ n_dev) :
    ∃ e, buildSplits pairs cat locale n_dev perm = .error e := by
  simp only [listQueryId] at h
  by_cases h0 : (uniqueFirst ((buildDf pairs cat locale).map (·.query_id))).length = 0
  · exact ⟨.zeroDivisionError, by simp only [buildSplits]; rw [if_pos h0]⟩
  · refine ⟨.valueError "test_size out of range", ?_⟩
    have hpos : (0 : ℚ) <
        ((uniqueFirst ((buildDf pairs cat locale).map (·.query_id))).length : ℚ) := by
      exact_mod_cast Nat.pos_of_ne_zero h0
    have hge : (1 : ℚ) ≤ (n_dev : ℚ) /
        ((uniqueFirst ((buildDf pairs cat locale).map (·.query_id))).length : ℚ) := by
      rw [le_div_iff₀ hpos, one_mul]
      exact_mod_cast h
    simp only [buildSplits]
    rw [if_neg h0, if_pos (Or.inr hge)]

/-- Witness for C9: two distinct query ids, five dev queries requested. -/
theorem claim_C9_split_failure_witness :
    ∃ e, buildSplits pairsW catW "us" 5 [1, 2] = .error e :=
  claim_C9_split_failure pairsW catW "us" 5 [1, 2]
    (by norm_num [listQueryId, buildDf, mergeTitles, uniqueFirst, pairsW, catW,
      esci_label2gain, List.filterMap_cons, Option.map_some'])

/-- C4 counterexample: on a concrete non-empty one-row training set with
the pipeline columns and N = 1, both guarantees of the claim fail:
augment_text does not return a table of N rows, raising AttributeError on
the missing target column instead of an Except.ok result; and the row the
construction loop builds from a source row with empty query text has an
empty query itself, since the synonym substitution is a no-op on the
empty string (modelled as aug = id). -/
theorem claim_C4_counterexample :
    augment_text trainColumns [rowEmptyQ] 1 (fun _ => 0) id =
      .error (.attributeError "target") ∧
    ∃ a ∈ augmentRows [rowEmptyQ] 1 (fun _ => 0) id, a.query = "" :=
  ⟨rfl, mkAugRow rowEmptyQ id, by decide, by decide⟩

/-- C4 amended: augment_text, called as the pipeline calls it on a
dataframe with the pipeline columns, fails with AttributeError on the
missing target column for every input and every count; its
row-construction loop, taken on its own, yields exactly N rows, each with
gain drawn from the fixed esci_label table and with query equal to the
synonym substitution aug of the query of the sampled source row; and
whenever the substitution is a no-op on the empty string, a row sampled
from a source with empty query has an empty query. -/
theorem claim_C4_amended (df : List Row) (n : Nat) (pick : Nat → Nat)
    (aug : String → String) :
    augment_text trainColumns df n pick aug = .error (.attributeError "target") ∧
    (augmentRows df n pick aug).length = n ∧
    (∀ a ∈ augmentRows df n pick aug, a.gain = esci_label2gain a.esci_label) ∧
    (∀ k, k < n → ((augmentRows df n pick aug).getD k default).query =
      aug (df.getD (pick k) default).query) ∧
    (aug "" = "" → ∀ k, k < n → (df.getD (pick k) default).query = "" →
      ((augmentRows df n pick aug).getD k default).query = "") := by
  have hget : ∀ k, k < n → (augmentRows df n pick aug).get? k =
      some (mkAugRow (df.getD (pick k) default) aug) := by
    intro k hk
    simp only [augmentRows, List.get?_map, List.get?_range hk, Option.map_some']
  refine ⟨rfl, by simp [augmentRows], ?_, ?_, ?_⟩
  · intro a ha
    simp only [augmentRows, List.mem_map] at ha
    obtain ⟨k, -, rfl⟩ := ha
    rfl
  · intro k hk
    rw [List.getD_eq_get?, hget k hk]
    rfl
  · intro h0 k hk hq
    rw [List.getD_eq_get?, hget k hk]
    show (mkAugRow (df.getD (pick k) default) aug).query = ""
    rw [mkAugRow]
    simp only [hq, h0]

/-- Witness for the amended C4 at a concrete one-row input with empty
query text, N = 1 and the identity substitution. -/
theorem claim_C4_amended_witness :
    augment_text trainColumns [rowEmptyQ] 1 (fun _ => 0) id =
      .error (.attributeError "target") ∧
    (augmentRows [rowEmptyQ] 1 (fun _ => 0) id).length = 1 ∧
    (mkAugRow rowEmptyQ id).gain =
      esci_label2gain (mkAugRow rowEmptyQ id).esci_label ∧
    ((augmentRows [rowEmptyQ] 1 (fun _ => 0) id).getD 0 default).query =
      id ([rowEmptyQ].getD 0 default).query ∧
    ((augmentRows [rowEmptyQ] 1 (fun _ => 0) id).getD 0 default).query = "" :=
  ⟨(claim_C4_amended [rowEmptyQ] 1 (fun _ => 0) id).1,
   (claim_C4_amended [rowEmptyQ] 1 (fun _ => 0) id).2.1,
   (claim_C4_amended [rowEmptyQ] 1 (fun _ => 0) id).2.2.1 (mkAugRow rowEmptyQ id)
     (by decide),
   (claim_C4_amended [rowEmptyQ] 1 (fun _ => 0) id).2.2.2.1 0 (by decide),
   (claim_C4_amended [rowEmptyQ] 1 (fun _ => 0) id).2.2.2.2 rfl 0 (by decide) rfl⟩

/-- C5 counterexample: with a one-row input of the irrelevant class, the
produced augmented sample has gain 0, hence is not derived from a pair
with gain > 0. -/
theorem claim_C5_counterexample :
    ∃ a ∈ augmentRows [rowIrrel] 1 (fun _ => 0) id, a.gain = 0 :=
  ⟨mkAugRow rowIrrel id, by decide, by decide⟩

/-- C5 amended: the augmented sample of iteration k is derived from row
pick k of the full input set, whatever its class, and inherits the
product_title and esci_label of that source row together with its table
gain. -/
theorem claim_C5_amended (df : List Row) (n : Nat) (pick : Nat → Nat)
    (aug : String → String) (k : Nat) (hk : k < n) (hp : pick k < df.length) :
    (augmentRows df n pick aug).get? k = some (mkAugRow (df.get ⟨pick k, hp⟩) aug) := by
  simp only [augmentRows, List.get?_map, List.get?_range hk, Option.map_some']
  have : df.getD (pick k) default = df.get ⟨pick k, hp⟩ := by
    rw [List.getD_eq_get?, List.get?_eq_get hp, Option.getD_some]
  rw [this]

/-- Witness for the amended C5 at a concrete one-row input, N = 1, k = 0. -/
theorem claim_C5_amended_witness :
    (augmentRows [rowIrrel] 1 (fun _ => 0) id).get? 0 =
      some (mkAugRow ([rowIrrel].get ⟨0, by decide⟩) id) :=
  claim_C5_amended [rowIrrel] 1 (fun _ => 0) id 0 (by decide) (by decide)

/-! ### Lemmas on the normalizer -/

/-- Rendering the empty piece list. -/
theorem renderP_nil : renderP [] = [] := rfl

/-- Rendering of a leading run. -/
theorem renderP_run_cons (r : Str) (ps : List Piece) :
    renderP (.run r :: ps) = ' ' :: (r ++ ' ' :: renderP ps) := by
  simp [renderP, Piece.render]

/-- Rendering of a leading separator. -/
theorem renderP_sep_cons (c : Char) (ps : List Piece) :
    renderP (.sep c :: ps) = c :: renderP ps := by
  simp [renderP, Piece.render]

/-- Rendering distributes over appending. -/
theorem renderP_append (ps qs : List Piece) :
    renderP (ps ++ qs) = renderP ps ++ renderP qs := by
  simp [renderP]

/-- A letter is not the space character. -/
theorem alpha_ne_space {c : Char} (h : c.isAlpha = true) : c ≠ ' ' := by
  intro he
  subst he
  exact absurd h (by decide)

/-- wrapAlpha renders the piece decomposition. -/
theorem wrapAlpha_eq_renderP (s : Str) : wrapAlpha s = renderP (piecesOf s) := by
  induction s using piecesOf.induct with
  | case1 =>
    rw [wrapAlpha, piecesOf]
    rfl
  | case2 c s h ih =>
    rw [wrapAlpha, piecesOf, if_pos h, if_pos h, renderP_run_cons, ih]
    simp
  | case3 c s h ih =>
    rw [wrapAlpha, piecesOf, if_neg h, if_neg h, renderP_sep_cons, ih]

/-- The piece decomposition is wellformed. -/
theorem WF_piecesOf (s : Str) : ∀ p ∈ piecesOf s, WFPiece p := by
  induction s using piecesOf.induct with
  | case1 =>
    rw [piecesOf]
    intro p hp
    exact absurd hp (List.not_mem_nil p)
  | case2 c s h ih =>
    rw [piecesOf, if_pos h]
    intro p hp
    rcases List.mem_cons.mp hp with rfl | hp
    · refine ⟨by simp, ?_⟩
      intro d hd
      rcases List.mem_cons.mp hd with rfl | hd
      · exact h
      · exact List.mem_takeWhile_imp hd
    · exact ih p hp
  | case3 c s h ih =>
    rw [piecesOf, if_neg h]
    intro p hp
    rcases List.mem_cons.mp hp with rfl | hp
    · simpa [WFPiece] using h
    · exact ih p hp

/-- The characters of the pieces come from the decomposed text. -/
theorem piecesOf_chars (s : Str) :
    ∀ p ∈ piecesOf s, ∀ c ∈ p.chars, c ∈ s := by
  induction s using piecesOf.induct with
  | case1 =>
    rw [piecesOf]
    intro p hp
    exact absurd hp (List.not_mem_nil p)
  | case2 c s h ih =>
    rw [piecesOf, if_pos h]
    intro p hp d hd
    rcases List.mem_cons.mp hp with rfl | hp
    · simp only [Piece.chars] at hd
      rcases List.mem_cons.mp hd with rfl | hd
      · exact List.mem_cons_self _ _
      · exact List.mem_cons_of_mem _ ((List.takeWhile_sublist _).mem hd)
    · exact List.mem_cons_of_mem _ ((List.dropWhile_sublist _).mem (ih p hp d hd))
  | case3 c s h ih =>
    rw [piecesOf, if_neg h]
    intro p hp d hd
    rcases List.mem_cons.mp hp with rfl | hp
    · simp only [Piece.chars, List.mem_singleton] at hd
      subst hd
      exact List.mem_cons_self _ _
    · exact List.mem_cons_of_mem _ (ih p hp d hd)

/-- subAll on the empty text. -/
theorem subAll_nil (alts : List Str) (rep : Str) : subAll alts rep [] = [] := by
  simp [subAll]

/-- subAll with no match at the head copies the head character. -/
theorem subAll_cons_none {alts : List Str} {rep : Str} {c : Char} {s : Str}
    (h : firstMatch alts (c :: s) = none) :
    subAll alts rep (c :: s) = c :: subAll alts rep s := by
  simp only [subAll]
  rw [h]

/-- subAll with a match at the head emits the replacement and continues
past the consumed characters. -/
theorem subAll_cons_some {alts : List Str} {rep : Str} {c : Char} {s : Str} {a : Str}
    (h : firstMatch alts (c :: s) = some a) :
    subAll alts rep (c :: s) = rep ++ subAll alts rep (s.drop (a.length - 1)) := by
  simp only [subAll]
  rw [h]

/-- Characters of a matched pattern occur in the text. -/
theorem mem_of_isPrefixOf : ∀ {p s : Str}, p.isPrefixOf s = true → ∀ c ∈ p, c ∈ s := by
  intro p
  induction p with
  | nil =>
    intro s h c hc
    exact absurd hc (List.not_mem_nil c)
  | cons a p ih =>
    intro s h c hc
    cases s with
    | nil => simp [List.isPrefixOf] at h
    | cons b s' =>
      simp only [List.isPrefixOf, Bool.and_eq_true, beq_iff_eq] at h
      rcases List.mem_cons.mp hc with rfl | hc
      · rw [h.1]
        exact List.mem_cons_self _ _
      · exact List.mem_cons_of_mem _ (ih h.2 c hc)

/-- A word followed by a space is a prefix of a letter run followed by a
space exactly when the two agree, as long as both are made of letters. -/
theorem pad_body_isPrefixOf_iff {t : Str} :
    ∀ (w r : Str), (∀ c ∈ w, c.isAlpha = true) → (∀ c ∈ r, c.isAlpha = true) →
      ((w ++ [' ']).isPrefixOf (r ++ ' ' :: t) = true ↔ w = r) := by
  intro w
  induction w with
  | nil =>
    intro r hw hr
    cases r with
    | nil => simp [List.isPrefixOf]
    | cons b r' =>
      have hb : b ≠ ' ' := alpha_ne_space (hr b (List.mem_cons_self _ _))
      simp only [List.nil_append, List.cons_append, List.isPrefixOf,
        Bool.and_eq_true, beq_iff_eq]
      constructor
      · rintro ⟨he, -⟩
        exact absurd he.symm hb
      · intro he
        exact absurd he (by simp)
  | cons a w' ih =>
    intro r hw hr
    cases r with
    | nil =>
      have ha : a ≠ ' ' := alpha_ne_space (hw a (List.mem_cons_self _ _))
      simp only [List.cons_append, List.nil_append, List.isPrefixOf,
        Bool.and_eq_true, beq_iff_eq]
      constructor
      · rintro ⟨he, -⟩
        exact absurd he ha
      · intro he
        exact absurd he (by simp)
    | cons b r' =>
      simp only [List.cons_append, List.isPrefixOf, Bool.and_eq_true, beq_iff_eq]
      by_cases hab : a = b
      · subst hab
        have hih := ih r' (fun c hc => hw c (List.mem_cons_of_mem _ hc))
          (fun c hc => hr c (List.mem_cons_of_mem _ hc))
        constructor
        · rintro ⟨-, h2⟩
          rw [hih.mp h2]
        · intro he
          have h2 : w' = r' := by injection he
          exact ⟨rfl, hih.mpr h2⟩
      · simp [hab]

/-- A padded word is a prefix of a padded run text exactly when the word
equals the run. -/
theorem padW_isPrefixOf_iff {w r t : Str} (hw : ∀ c ∈ w, c.isAlpha = true)
    (hr : ∀ c ∈ r, c.isAlpha = true) :
    ((padW w).isPrefixOf (' ' :: (r ++ ' ' :: t)) = true) ↔ w = r := by
  show ((' ' :: (w ++ [' '])).isPrefixOf (' ' :: (r ++ ' ' :: t)) = true) ↔ _
  simp only [List.isPrefixOf, Bool.and_eq_true, beq_iff_eq, beq_self_eq_true,
    true_and]
  exact pad_body_isPrefixOf_iff w r hw hr

/-- No padded alternative matches at a non-space character. -/
theorem firstMatch_pad_none_head {ws : List Str} {c : Char} {s : Str} (hc : c ≠ ' ') :
    firstMatch (ws.map padW) (c :: s) = none := by
  simp only [firstMatch]
  rw [List.find?_eq_none]
  intro a ha
  simp only [List.mem_map] at ha
  obtain ⟨w, hw, rfl⟩ := ha
  show ¬ ((' ' :: (w ++ [' '])).isPrefixOf (c :: s) = true)
  simp only [List.isPrefixOf, Bool.and_eq_true, beq_iff_eq]
  rintro ⟨he, -⟩
  exact hc he.symm

/-- No padded alternative matches at a space followed by a non-letter (or
by the end of the text). -/
theorem firstMatch_pad_none_space {ws : List Str} {s : Str}
    (hws : ∀ w ∈ ws, w ≠ [] ∧ ∀ c ∈ w, c.isAlpha = true)
    (hs : ∀ c, s.head? = some c → c.isAlpha = false) :
    firstMatch (ws.map padW) (' ' :: s) = none := by
  simp only [firstMatch]
  rw [List.find?_eq_none]
  intro a ha
  simp only [List.mem_map] at ha
  obtain ⟨w, hw, rfl⟩ := ha
  obtain ⟨hne, halpha⟩ := hws w hw
  show ¬ ((' ' :: (w ++ [' '])).isPrefixOf (' ' :: s) = true)
  cases w with
  | nil => exact absurd rfl hne
  | cons b w' =>
    have hb : b.isAlpha = true := halpha b (List.mem_cons_self _ _)
    cases s with
    | nil =>
      simp [List.isPrefixOf]
    | cons d s' =>
      have hd : d.isAlpha = false := hs d rfl
      simp only [List.cons_append, List.isPrefixOf, Bool.and_eq_true, beq_iff_eq]
      rintro ⟨-, hbd, -⟩
      rw [hbd, hd] at hb
      exact Bool.noConfusion hb

/-- At the padded rendering of a letter run, the alternation matches
exactly the alternative equal to the run. -/
theorem firstMatch_pad_run {ws : List Str} {r t : Str}
    (hws : ∀ w ∈ ws, ∀ c ∈ w, c.isAlpha = true)
    (hr : ∀ c ∈ r, c.isAlpha = true) :
    firstMatch (ws.map padW) (' ' :: (r ++ ' ' :: t)) =
      if r ∈ ws then some (padW r) else none := by
  induction ws with
  | nil => simp [firstMatch]
  | cons w ws ih =>
    simp only [firstMatch, List.map_cons]
    by_cases hwr : w = r
    · subst hwr
      have hpos := List.find?_cons_of_pos
        (p := fun a : Str => a.isPrefixOf (' ' :: (w ++ ' ' :: t)))
        (List.map padW ws)
        ((padW_isPrefixOf_iff (hws w (List.mem_cons_self _ _)) hr).mpr rfl)
      rw [hpos, if_pos (List.mem_cons_self _ _)]
    · rw [List.find?_cons_of_neg]
      · have ihh := ih (fun w' hw' => hws w' (List.mem_cons_of_mem _ hw'))
        simp only [firstMatch] at ihh
        rw [ihh]
        by_cases hrws : r ∈ ws
        · rw [if_pos hrws, if_pos (List.mem_cons_of_mem _ hrws)]
        · rw [if_neg hrws, if_neg (by
            intro hm
            rcases List.mem_cons.mp hm with he | hm2
            · exact hwr he.symm
            · exact hrws hm2)]
      · simp only [Bool.not_eq_true]
        rw [← Bool.not_eq_true]
        intro habs
        exact hwr ((padW_isPrefixOf_iff (hws w (List.mem_cons_self _ _)) hr).mp habs)

/-- subAll copies a block of letters in which no match can start. -/
theorem subAll_walk {ws : List Str} {rep : Str} :
    ∀ {xs : Str}, (∀ c ∈ xs, c.isAlpha = true) → ∀ s : Str,
      subAll (ws.map padW) rep (xs ++ s) = xs ++ subAll (ws.map padW) rep s := by
  intro xs
  induction xs with
  | nil =>
    intro h s
    simp
  | cons c xs ih =>
    intro h s
    rw [List.cons_append,
      subAll_cons_none (firstMatch_pad_none_head
        (alpha_ne_space (h c (List.mem_cons_self _ _)))),
      ih (fun d hd => h d (List.mem_cons_of_mem _ hd)) s]
    rfl

/-- The rendering of a wellformed piece list never starts with a letter. -/
theorem renderP_head_not_alpha {ps : List Piece} (hwf : ∀ p ∈ ps, WFPiece p) :
    ∀ c, (renderP ps).head? = some c → c.isAlpha = false := by
  intro c hc
  cases ps with
  | nil => simp [renderP_nil] at hc
  | cons p ps' =>
    cases p with
    | run r =>
      rw [renderP_run_cons] at hc
      simp only [List.head?_cons, Option.some.injEq] at hc
      subst hc
      decide
    | sep d =>
      rw [renderP_sep_cons] at hc
      simp only [List.head?_cons, Option.some.injEq] at hc
      exact hc ▸ hwf (.sep d) (List.mem_cons_self _ _)

/-- The main substitution lemma: over the rendering of a wellformed piece
list, one space-delimited literal substitution replaces exactly the runs
equal to one of its words. -/
theorem subAll_renderP {ws : List Str} {u : Str}
    (hws : ∀ w ∈ ws, w ≠ [] ∧ ∀ c ∈ w, c.isAlpha = true) :
    ∀ ps : List Piece, (∀ p ∈ ps, WFPiece p) →
      subAll (ws.map padW) (padW u) (renderP ps) = renderP (ps.map (runMap ws u)) := by
  intro ps
  induction ps with
  | nil =>
    intro _
    rw [renderP_nil, List.map_nil, renderP_nil, subAll_nil]
  | cons p ps ih =>
    intro hwf
    have hwfp := hwf p (List.mem_cons_self _ _)
    have hwfps := fun q hq => hwf q (List.mem_cons_of_mem _ hq)
    cases p with
    | sep c =>
      rw [renderP_sep_cons, List.map_cons]
      show subAll (ws.map padW) (padW u) (c :: renderP ps) =
        renderP (runMap ws u (.sep c) :: ps.map (runMap ws u))
      rw [show runMap ws u (.sep c) = .sep c from rfl, renderP_sep_cons]
      by_cases hc : c = ' '
      · subst hc
        rw [subAll_cons_none (firstMatch_pad_none_space hws
            (renderP_head_not_alpha hwfps)), ih hwfps]
      · rw [subAll_cons_none (firstMatch_pad_none_head hc), ih hwfps]
    | run r =>
      obtain ⟨hrne, hralpha⟩ := hwfp
      rw [renderP_run_cons, List.map_cons]
      show subAll (ws.map padW) (padW u) (' ' :: (r ++ ' ' :: renderP ps)) =
        renderP (runMap ws u (.run r) :: ps.map (runMap ws u))
      rw [show runMap ws u (.run r) = .run (runSub ws u r) from rfl, renderP_run_cons]
      by_cases hmem : r ∈ ws
      · rw [subAll_cons_some (by
            rw [firstMatch_pad_run (fun w hw => (hws w hw).2) hralpha, if_pos hmem])]
        have hdrop : (r ++ ' ' :: renderP ps).drop ((padW r).length - 1) = renderP ps := by
          have hlen : (padW r).length - 1 = r.length + 1 := by
            simp [padW]
          rw [hlen, show r.length + 1 = r.length + 1 from rfl]
          rw [show (r ++ ' ' :: renderP ps) = (r ++ [' ']) ++ renderP ps by simp]
          rw [show r.length + 1 = (r ++ [' ']).length by simp]
          exact List.drop_left _ _
        rw [hdrop, ih hwfps, runSub, if_pos hmem]
        simp [padW]
      · rw [subAll_cons_none (by
            rw [firstMatch_pad_run (fun w hw => (hws w hw).2) hralpha, if_neg hmem]),
          subAll_walk hralpha,
          subAll_cons_none (firstMatch_pad_none_space hws
            (renderP_head_not_alpha hwfps)),
          ih hwfps, runSub, if_neg hmem]

/-- One substitution preserves wellformedness when its replacement word is
a nonempty letter word. -/
theorem WFPiece_runMap {ws : List Str} {u : Str}
    (hu : u ≠ [] ∧ ∀ c ∈ u, c.isAlpha = true) {p : Piece} (h : WFPiece p) :
    WFPiece (runMap ws u p) := by
  cases p with
  | run r =>
    show WFPiece (.run (runSub ws u r))
    rw [runSub]
    by_cases hm : r ∈ ws
    · rw [if_pos hm]
      exact hu
    · rw [if_neg hm]
      exact h
  | sep c => exact h

/-- Mapped form of the previous lemma. -/
theorem WF_map_runMap {ws : List Str} {u : Str}
    (hu : u ≠ [] ∧ ∀ c ∈ u, c.isAlpha = true) {X : List Piece}
    (h : ∀ p ∈ X, WFPiece p) : ∀ p ∈ X.map (runMap ws u), WFPiece p := by
  intro p hp
  obtain ⟨q, hq, rfl⟩ := List.mem_map.mp hp
  exact WFPiece_runMap hu (h q hq)

/-- standardize_units over the rendering of a wellformed piece list:
surround with space separators, then replace each run by its canonical
form through the six substitutions. -/
theorem standardize_renderP (ps : List Piece) (hwf : ∀ p ∈ ps, WFPiece p) :
    standardize_units (renderP ps) =
      renderP ((Piece.sep ' ' :: (ps ++ [Piece.sep ' '])).map unitCanonP) := by
  have h0 : (' ' :: renderP ps ++ [' ']) =
      renderP (Piece.sep ' ' :: (ps ++ [Piece.sep ' '])) := by
    rw [renderP_sep_cons, renderP_append]
    rfl
  have hwf0 : ∀ p ∈ Piece.sep ' ' :: (ps ++ [Piece.sep ' ']), WFPiece p := by
    intro p hp
    rcases List.mem_cons.mp hp with rfl | hp
    · show (' ' : Char).isAlpha = false
      decide
    · rcases List.mem_append.mp hp with hp | hp
      · exact hwf p hp
      · rcases List.mem_singleton.mp hp with rfl
        show (' ' : Char).isAlpha = false
        decide
  have hws1 : ∀ w ∈ units1w, w ≠ [] ∧ ∀ c ∈ w, c.isAlpha = true := by decide
  have hws2 : ∀ w ∈ units2w, w ≠ [] ∧ ∀ c ∈ w, c.isAlpha = true := by decide
  have hws3 : ∀ w ∈ units3w, w ≠ [] ∧ ∀ c ∈ w, c.isAlpha = true := by decide
  have hws4 : ∀ w ∈ units4w, w ≠ [] ∧ ∀ c ∈ w, c.isAlpha = true := by decide
  have hws5 : ∀ w ∈ units5w, w ≠ [] ∧ ∀ c ∈ w, c.isAlpha = true := by decide
  have hws6 : ∀ w ∈ units6w, w ≠ [] ∧ ∀ c ∈ w, c.isAlpha = true := by decide
  have hu1 : lit "gallon" ≠ [] ∧ ∀ c ∈ lit "gallon", c.isAlpha = true := by decide
  have hu2 : lit "feet" ≠ [] ∧ ∀ c ∈ lit "feet", c.isAlpha = true := by decide
  have hu3 : lit "square" ≠ [] ∧ ∀ c ∈ lit "square", c.isAlpha = true := by decide
  have hu4 : lit "pound" ≠ [] ∧ ∀ c ∈ lit "pound", c.isAlpha = true := by decide
  have hu5 : lit "ounce" ≠ [] ∧ ∀ c ∈ lit "ounce", c.isAlpha = true := by decide
  simp only [standardize_units]
  rw [h0]
  rw [subAll_renderP hws1 _ hwf0,
    subAll_renderP hws2 _ (WF_map_runMap hu1 hwf0),
    subAll_renderP hws3 _ (WF_map_runMap hu2 (WF_map_runMap hu1 hwf0)),
    subAll_renderP hws4 _
      (WF_map_runMap hu3 (WF_map_runMap hu2 (WF_map_runMap hu1 hwf0))),
    subAll_renderP hws5 _ (WF_map_runMap hu4
      (WF_map_runMap hu3 (WF_map_runMap hu2 (WF_map_runMap hu1 hwf0)))),
    subAll_renderP hws6 _ (WF_map_runMap hu5 (WF_map_runMap hu4
      (WF_map_runMap hu3 (WF_map_runMap hu2 (WF_map_runMap hu1 hwf0)))))]
  rw [List.map_map, List.map_map, List.map_map, List.map_map, List.map_map]
  refine congrArg renderP (List.map_congr_left ?_)
  intro p hp
  cases p <;> rfl

/-- takeWhile over an all-satisfying prefix. -/
theorem takeWhile_append_all {p : Char → Bool} :
    ∀ {t : Str}, (∀ c ∈ t, p c = true) → ∀ s : Str,
      (t ++ s).takeWhile p = t ++ s.takeWhile p := by
  intro t
  induction t with
  | nil =>
    intro _ s
    simp
  | cons c t ih =>
    intro h s
    rw [List.cons_append, List.takeWhile_cons_of_pos (h c (List.mem_cons_self _ _)),
      ih (fun d hd => h d (List.mem_cons_of_mem _ hd)) s, List.cons_append]

/-- dropWhile over an all-satisfying prefix. -/
theorem dropWhile_append_all {p : Char → Bool} :
    ∀ {t : Str}, (∀ c ∈ t, p c = true) → ∀ s : Str,
      (t ++ s).dropWhile p = s.dropWhile p := by
  intro t
  induction t with
  | nil =>
    intro _ s
    simp
  | cons c t ih =>
    intro h s
    rw [List.cons_append, List.dropWhile_cons_of_pos (h c (List.mem_cons_self _ _)),
      ih (fun d hd => h d (List.mem_cons_of_mem _ hd)) s]

/-- The empty text has no tokens. -/
theorem tokens_nil : tokens [] = [] := by
  simp [tokens]

/-- A leading space is skipped. -/
theorem tokens_cons_space (s : Str) : tokens (' ' :: s) = tokens s := by
  rw [tokens]
  simp

/-- A leading non-space character opens a token. -/
theorem tokens_cons_ns {c : Char} (hc : c ≠ ' ') (s : Str) :
    tokens (c :: s) = (c :: s.takeWhile (fun d => d != ' ')) ::
      tokens (s.dropWhile (fun d => d != ' ')) := by
  rw [tokens, if_neg hc]

/-- A space-free text is one token (or none, when empty). -/
theorem tokens_of_nospace {t : Str} (h : ∀ c ∈ t, c ≠ ' ') :
    tokens t = if t = [] then [] else [t] := by
  cases t with
  | nil => exact tokens_nil
  | cons c t' =>
    have hall : ∀ d ∈ t', (fun d => d != ' ') d = true :=
      fun d hd => by simpa using h d (List.mem_cons_of_mem _ hd)
    have h1 : t'.takeWhile (fun d => d != ' ') = t' := by
      have := takeWhile_append_all hall []
      simpa using this
    have h2 : t'.dropWhile (fun d => d != ' ') = [] := by
      have := dropWhile_append_all hall []
      simpa using this
    rw [tokens_cons_ns (h c (List.mem_cons_self _ _)), h1, h2, tokens_nil]
    simp

/-- Tokens of a space-free block, a space, then a remainder. -/
theorem tokens_append_space {t : Str} (h : ∀ c ∈ t, c ≠ ' ') (s : Str) :
    tokens (t ++ ' ' :: s) = (if t = [] then [] else [t]) ++ tokens s := by
  cases t with
  | nil =>
    rw [List.nil_append, tokens_cons_space]
    simp
  | cons c t' =>
    rw [List.cons_append,
      tokens_cons_ns (h c (List.mem_cons_self _ _))]
    have h1 : (t' ++ ' ' :: s).takeWhile (fun d => d != ' ') = t' := by
      rw [takeWhile_append_all
        (fun d hd => by simpa using h d (List.mem_cons_of_mem _ hd))]
      simp [List.takeWhile_cons]
    have h2 : (t' ++ ' ' :: s).dropWhile (fun d => d != ' ') = ' ' :: s := by
      rw [dropWhile_append_all
        (fun d hd => by simpa using h d (List.mem_cons_of_mem _ hd))]
      simp [List.dropWhile_cons]
    rw [h1, h2, tokens_cons_space]
    simp

/-- The tokens of a pending block followed by a rendered piece list. -/
theorem tokens_renderP : ∀ (ps : List Piece), (∀ p ∈ ps, WFPiece p) →
    ∀ t : Str, (∀ c ∈ t, c ≠ ' ') →
      tokens (t ++ renderP ps) = tokensPAux t ps := by
  intro ps
  induction ps with
  | nil =>
    intro _ t ht
    rw [renderP_nil, List.append_nil, tokens_of_nospace ht]
    rfl
  | cons p ps ih =>
    intro hwf t ht
    have hwfp := hwf p (List.mem_cons_self _ _)
    have hwfps := fun q hq => hwf q (List.mem_cons_of_mem _ hq)
    cases p with
    | run r =>
      obtain ⟨hrne, hralpha⟩ := hwfp
      have hih := ih hwfps [] (fun c hc => absurd hc (List.not_mem_nil c))
      rw [List.nil_append] at hih
      rw [renderP_run_cons,
        show t ++ ' ' :: (r ++ ' ' :: renderP ps) = t ++ ' ' :: (r ++ ' ' :: renderP ps)
          from rfl,
        tokens_append_space ht,
        tokens_append_space (fun c hc => alpha_ne_space (hralpha c hc)), hih]
      cases r with
      | nil => exact absurd rfl hrne
      | cons a r' =>
        show _ = (if t = [] then [] else [t]) ++ (a :: r') :: tokensPAux [] ps
        simp
    | sep c =>
      by_cases hc : c = ' '
      · subst hc
        have hih := ih hwfps [] (fun c hc => absurd hc (List.not_mem_nil c))
        rw [List.nil_append] at hih
        rw [renderP_sep_cons, tokens_append_space ht, hih]
        rfl
      · rw [renderP_sep_cons,
          show t ++ c :: renderP ps = (t ++ [c]) ++ renderP ps by simp,
          ih hwfps (t ++ [c]) (by
            intro d hd
            rcases List.mem_append.mp hd with hd | hd
            · exact ht d hd
            · rcases List.mem_singleton.mp hd with rfl
              exact hc)]
        show tokensPAux (t ++ [c]) ps = tokensPAux t (.sep c :: ps)
        rw [show tokensPAux t (.sep c :: ps) = tokensPAux (t ++ [c]) ps from by
          rw [tokensPAux, if_neg hc]]

/-- A trailing space separator does not change the tokens of a piece
list. -/
theorem tokensPAux_append_space : ∀ (ps : List Piece) (t : Str),
    tokensPAux t (ps ++ [.sep ' ']) = tokensPAux t ps := by
  intro ps
  induction ps with
  | nil =>
    intro t
    show tokensPAux t [.sep ' '] = tokensPAux t []
    simp [tokensPAux]
  | cons p ps ih =>
    intro t
    cases p with
    | run r =>
      rw [List.cons_append, tokensPAux, tokensPAux, ih]
    | sep c =>
      by_cases hc : c = ' '
      · subst hc
        rw [List.cons_append, tokensPAux, if_pos rfl, tokensPAux, if_pos rfl, ih]
      · rw [List.cons_append, tokensPAux, if_neg hc, tokensPAux, if_neg hc, ih]

/-- A token made of non-letters is no unit abbreviation, hence the six
substitutions fix it. -/
theorem unitCanon_of_nonalpha {t : Str} (h : ∀ c ∈ t, c.isAlpha = false) :
    unitCanon t = t := by
  have hall : ∀ w ∈ unitAbbrevWords, ∃ c ∈ w, c.isAlpha = true := by decide
  have hn : t ∉ unitAbbrevWords := by
    intro hm
    obtain ⟨c, hc, hca⟩ := hall t hm
    rw [h c hc] at hca
    exact Bool.noConfusion hca
  have h1 : t ∉ units1w := fun hm => hn (by simp [unitAbbrevWords, hm])
  have h2 : t ∉ units2w := fun hm => hn (by simp [unitAbbrevWords, hm])
  have h3 : t ∉ units3w := fun hm => hn (by simp [unitAbbrevWords, hm])
  have h4 : t ∉ units4w := fun hm => hn (by simp [unitAbbrevWords, hm])
  have h5 : t ∉ units5w := fun hm => hn (by simp [unitAbbrevWords, hm])
  have h6 : t ∉ units6w := fun hm => hn (by simp [unitAbbrevWords, hm])
  simp [unitCanon, runSub, h1, h2, h3, h4, h5, h6]

/-- The tokens of the canonized pieces are the canonized tokens. -/
theorem tokensPAux_map : ∀ (ps : List Piece), (∀ p ∈ ps, WFPiece p) →
    ∀ t : Str, (∀ c ∈ t, c.isAlpha = false) →
      tokensPAux t (ps.map unitCanonP) = (tokensPAux t ps).map unitCanon := by
  intro ps
  induction ps with
  | nil =>
    intro _ t ht
    by_cases h : t = []
    · subst h
      rfl
    · show (if t = [] then [] else [t]) = List.map unitCanon (if t = [] then [] else [t])
      rw [if_neg h, List.map_cons, List.map_nil, unitCanon_of_nonalpha ht]
  | cons p ps ih =>
    intro hwf t ht
    have hwfp := hwf p (List.mem_cons_self _ _)
    have hwfps := fun q hq => hwf q (List.mem_cons_of_mem _ hq)
    cases p with
    | run r =>
      show tokensPAux t (.run (unitCanon r) :: ps.map unitCanonP) = _
      rw [tokensPAux, tokensPAux,
        ih hwfps [] (fun c hc => absurd hc (List.not_mem_nil c))]
      by_cases h : t = []
      · subst h
        simp
      · rw [if_neg h]
        simp [unitCanon_of_nonalpha ht]
    | sep c =>
      by_cases hc : c = ' '
      · subst hc
        show tokensPAux t (.sep ' ' :: ps.map unitCanonP) = _
        rw [tokensPAux, if_pos rfl, tokensPAux, if_pos rfl,
          ih hwfps [] (fun c hc => absurd hc (List.not_mem_nil c))]
        by_cases h : t = []
        · subst h
          simp
        · rw [if_neg h]
          simp [unitCanon_of_nonalpha ht]
      · show tokensPAux t (.sep c :: ps.map unitCanonP) = _
        rw [tokensPAux, if_neg hc, tokensPAux, if_neg hc]
        refine ih hwfps (t ++ [c]) ?_
        intro d hd
        rcases List.mem_append.mp hd with hd | hd
        · exact ht d hd
        · rcases List.mem_singleton.mp hd with rfl
          exact hwfp

/-- unitCanonP as the composition of the six per-piece substitutions. -/
theorem unitCanonP_eq_chain (p : Piece) :
    unitCanonP p = runMap units6w (lit "yard") (runMap units5w (lit "ounce")
      (runMap units4w (lit "pound") (runMap units3w (lit "square")
      (runMap units2w (lit "feet") (runMap units1w (lit "gallon") p))))) := by
  cases p <;> rfl

/-- Canonizing preserves wellformedness. -/
theorem WFPiece_unitCanonP {p : Piece} (h : WFPiece p) : WFPiece (unitCanonP p) := by
  rw [unitCanonP_eq_chain]
  exact WFPiece_runMap (by decide) (WFPiece_runMap (by decide)
    (WFPiece_runMap (by decide) (WFPiece_runMap (by decide)
    (WFPiece_runMap (by decide) (WFPiece_runMap (by decide) h)))))

/-- The tokens of standardize_units over a rendered wellformed piece list
are the canonized tokens of the list. -/
theorem tokens_standardize (ps : List Piece) (hwf : ∀ p ∈ ps, WFPiece p) :
    tokens (standardize_units (renderP ps)) = (tokensPAux [] ps).map unitCanon := by
  rw [standardize_renderP ps hwf]
  have hwfpad : ∀ p ∈ Piece.sep ' ' :: (ps ++ [Piece.sep ' ']), WFPiece p := by
    intro p hp
    rcases List.mem_cons.mp hp with rfl | hp
    · show (' ' : Char).isAlpha = false
      decide
    · rcases List.mem_append.mp hp with hp | hp
      · exact hwf p hp
      · rcases List.mem_singleton.mp hp with rfl
        show (' ' : Char).isAlpha = false
        decide
  have hwfm : ∀ p ∈ (Piece.sep ' ' :: (ps ++ [Piece.sep ' '])).map unitCanonP,
      WFPiece p := by
    intro p hp
    obtain ⟨q, hq, rfl⟩ := List.mem_map.mp hp
    exact WFPiece_unitCanonP (hwfpad q hq)
  have hmain := tokens_renderP _ hwfm [] (fun c hc => absurd hc (List.not_mem_nil c))
  rw [List.nil_append] at hmain
  rw [hmain]
  rw [show (Piece.sep ' ' :: (ps ++ [Piece.sep ' '])).map unitCanonP =
      Piece.sep ' ' :: (ps.map unitCanonP ++ [Piece.sep ' ']) from by simp [unitCanonP]]
  rw [show tokensPAux [] (Piece.sep ' ' :: (ps.map unitCanonP ++ [Piece.sep ' '])) =
      tokensPAux [] (ps.map unitCanonP ++ [Piece.sep ' ']) from by
    rw [tokensPAux, if_pos rfl]
    simp]
  rw [tokensPAux_append_space, tokensPAux_map ps hwf []
    (fun c hc => absurd hc (List.not_mem_nil c))]

/-- Every token of Python str.split() is nonempty and space free. -/
theorem tokens_mem_props : ∀ (n : Nat) (s : Str), s.length ≤ n →
    ∀ t ∈ tokens s, t ≠ [] ∧ ∀ c ∈ t, c ≠ ' ' := by
  intro n
  induction n with
  | zero =>
    intro s hs
    rw [List.eq_nil_of_length_eq_zero (Nat.le_zero.mp hs)]
    intro t ht
    simp [tokens] at ht
  | succ n ih =>
    intro s hs t ht
    cases s with
    | nil => simp [tokens] at ht
    | cons c s' =>
      simp only [List.length_cons] at hs
      by_cases hc : c = ' '
      · rw [show tokens (c :: s') = tokens s' from by rw [tokens, if_pos hc]] at ht
        exact ih s' (Nat.le_of_succ_le_succ hs) t ht
      · rw [show tokens (c :: s') =
              (c :: s'.takeWhile (fun d => d != ' ')) ::
                tokens (s'.dropWhile (fun d => d != ' ')) from by
            rw [tokens, if_neg hc]] at ht
        rcases List.mem_cons.mp ht with rfl | ht
        · refine ⟨List.cons_ne_nil _ _, ?_⟩
          intro d hd
          rcases List.mem_cons.mp hd with rfl | hd
          · exact hc
          · have := List.mem_takeWhile_imp hd
            simpa using this
        · have hlen : (s'.dropWhile (fun d => d != ' ')).length ≤ n :=
            Nat.le_trans ((List.dropWhile_sublist _).length_le)
              (Nat.le_of_succ_le_succ hs)
          exact ih _ hlen t ht

/-- Joining with one space the front of a nonempty token list. -/
theorem intercalate_cons2 (t t' : Str) (ts : List Str) :
    List.intercalate [' '] (t :: t' :: ts) =
      t ++ ' ' :: List.intercalate [' '] (t' :: ts) := by
  simp [List.intercalate, List.intersperse]

/-- Splitting a space join of nonempty space-free tokens recovers them. -/
theorem tokens_intercalate : ∀ ts : List Str,
    (∀ t ∈ ts, t ≠ [] ∧ ∀ c ∈ t, c ≠ ' ') →
    tokens (List.intercalate [' '] ts) = ts := by
  intro ts
  induction ts with
  | nil =>
    intro _
    simp [List.intercalate, List.intersperse, tokens]
  | cons t ts ih =>
    intro h
    obtain ⟨hne, hns⟩ := h t (List.mem_cons_self _ _)
    have hts := fun u hu => h u (List.mem_cons_of_mem _ hu)
    cases ts with
    | nil =>
      rw [show List.intercalate [' '] [t] = t from by
        simp [List.intercalate, List.intersperse]]
      rw [tokens_of_nospace hns, if_neg hne]
    | cons t' ts' =>
      rw [intercalate_cons2, tokens_append_space hns, ih hts, if_neg hne]
      rfl

/-- The canonical form of a letter run is never again an abbreviation of
the fixed table. -/
theorem unitCanon_not_abbrev (r : Str) : unitCanon r ∉ unitAbbrevWords := by
  by_cases h : r ∈ unitAbbrevWords
  · have hall : ∀ w ∈ unitAbbrevWords, unitCanon w ∉ unitAbbrevWords := by decide
    exact hall r h
  · have h1 : r ∉ units1w := fun hm => h (by simp [unitAbbrevWords, hm])
    have h2 : r ∉ units2w := fun hm => h (by simp [unitAbbrevWords, hm])
    have h3 : r ∉ units3w := fun hm => h (by simp [unitAbbrevWords, hm])
    have h4 : r ∉ units4w := fun hm => h (by simp [unitAbbrevWords, hm])
    have h5 : r ∉ units5w := fun hm => h (by simp [unitAbbrevWords, hm])
    have h6 : r ∉ units6w := fun hm => h (by simp [unitAbbrevWords, hm])
    simpa [unitCanon, runSub, h1, h2, h3, h4, h5, h6] using h

/-- The tokens of preprocess are the canonized tokens of the text right
before standardize_units: the six substitutions act whole token by whole
token through the fixed table. -/
theorem tokens_preprocess (x : Str) :
    tokens (preprocess x) = (tokens (preJoin x)).map unitCanon := by
  have hpre : preprocess x =
      List.intercalate [' '] (tokens (standardize_units (preJoin x))) := rfl
  have hwf := WF_piecesOf (List.intercalate [' ']
    ((splitW (replaceAll (lit "in.") (lit " inch ") x)).map (List.map Char.toLower)))
  have hj : preJoin x = renderP (piecesOf (List.intercalate [' ']
      ((splitW (replaceAll (lit "in.") (lit " inch ") x)).map
        (List.map Char.toLower)))) := wrapAlpha_eq_renderP _
  have hstd : tokens (standardize_units (preJoin x)) =
      (tokensPAux [] (piecesOf (List.intercalate [' ']
        ((splitW (replaceAll (lit "in.") (lit " inch ") x)).map
          (List.map Char.toLower))))).map unitCanon := by
    rw [hj]
    exact tokens_standardize _ hwf
  have hpj : tokens (preJoin x) = tokensPAux [] (piecesOf (List.intercalate [' ']
      ((splitW (replaceAll (lit "in.") (lit " inch ") x)).map
        (List.map Char.toLower)))) := by
    rw [hj]
    have := tokens_renderP _ hwf [] (fun c hc => absurd hc (List.not_mem_nil c))
    rwa [List.nil_append] at this
  rw [hpre, tokens_intercalate _ (tokens_mem_props _ _ le_rfl), hstd, hpj]

set_option maxRecDepth 8000 in
/-- C7 counterexample: on the input "<b>Drill</b> 10in" the normalizer
output does not contain the token "inch" (the replacement of "in." by
" inch " needs the trailing period, which this input lacks); shown both
for the composed normalizer clean_text-then-preprocess and for the
pipeline function preprocess alone. -/
theorem claim_C7_counterexample :
    (tokens (normalize (lit "<b>Drill</b> 10in"))).contains (lit "inch") = false ∧
    (tokens (preprocess (lit "<b>Drill</b> 10in"))).contains (lit "inch") = false := by
  have h1 : normalize (lit "<b>Drill</b> 10in") = lit "drill 10 in" := by
    simp +decide [normalize, clean_text, preprocess, replaceAll, splitW, splitWAux,
      wrapAlpha, standardize_units, subAll, firstMatch, tokens, lit, isWordChar,
      padW, units1w, units2w, units3w, units4w, units5w, units6w,
      List.intercalate, List.intersperse]
  have h2 : preprocess (lit "<b>Drill</b> 10in") = lit "b drill b 10 in" := by
    simp +decide [preprocess, replaceAll, splitW, splitWAux, wrapAlpha,
      standardize_units, subAll, firstMatch, tokens, lit, isWordChar, padW,
      units1w, units2w, units3w, units4w, units5w, units6w,
      List.intercalate, List.intersperse]
  rw [h1, h2]
  constructor <;> simp +decide [tokens, lit]

set_option maxRecDepth 8000 in
/-- C7 amended: the normalizer does strip the HTML-like tags from the
example input, and its output carries no angle bracket; but the unit token
it contains is "in", not "inch", because the "in." rule fires only on a
trailing period.  Shown for clean_text, for the composed normalizer and
for the pipeline function preprocess alone, with the bracket-freeness as
boolean scans of the outputs. -/
theorem claim_C7_amended :
    clean_text (lit "<b>Drill</b> 10in") = lit "Drill 10in" ∧
    normalize (lit "<b>Drill</b> 10in") = lit "drill 10 in" ∧
    preprocess (lit "<b>Drill</b> 10in") = lit "b drill b 10 in" ∧
    (tokens (normalize (lit "<b>Drill</b> 10in"))).contains (lit "in") = true ∧
    (normalize (lit "<b>Drill</b> 10in")).all
      (fun c => !(c == '<') && !(c == '>')) = true ∧
    (preprocess (lit "<b>Drill</b> 10in")).all
      (fun c => !(c == '<') && !(c == '>')) = true := by
  have h0 : clean_text (lit "<b>Drill</b> 10in") = lit "Drill 10in" := by
    simp +decide [clean_text, lit]
  have h1 : normalize (lit "<b>Drill</b> 10in") = lit "drill 10 in" := by
    simp +decide [normalize, clean_text, preprocess, replaceAll, splitW, splitWAux,
      wrapAlpha, standardize_units, subAll, firstMatch, tokens, lit, isWordChar,
      padW, units1w, units2w, units3w, units4w, units5w, units6w,
      List.intercalate, List.intersperse]
  have h2 : preprocess (lit "<b>Drill</b> 10in") = lit "b drill b 10 in" := by
    simp +decide [preprocess, replaceAll, splitW, splitWAux, wrapAlpha,
      standardize_units, subAll, firstMatch, tokens, lit, isWordChar, padW,
      units1w, units2w, units3w, units4w, units5w, units6w,
      List.intercalate, List.intersperse]
  refine ⟨h0, h1, h2, ?_, ?_, ?_⟩ <;> first
    | (rw [h1]; simp +decide [tokens, lit])
    | (rw [h2]; simp +decide [tokens, lit])

set_option maxRecDepth 8000 in
/-- C8: the six substitutions of standardize_units replace, whole token by
whole token, every abbreviation of the fixed table by its canonical form:
the tokens of preprocess are exactly the canonized tokens of the text
entering standardize_units, no output token is an abbreviation of the
table, and the normalizer maps the example "10 gal tank" to
"10 gallon tank", whose tokens contain "gallon" and not "gal". -/
theorem claim_C8_units :
    (∀ x : Str, tokens (preprocess x) = (tokens (preJoin x)).map unitCanon) ∧
    (∀ x : Str,
      (tokens (preprocess x)).all (fun t => !(unitAbbrevWords.contains t)) = true) ∧
    normalize (lit "10 gal tank") = lit "10 gallon tank" ∧
    (tokens (normalize (lit "10 gal tank"))).contains (lit "gallon") = true ∧
    (tokens (normalize (lit "10 gal tank"))).contains (lit "gal") = false := by
  have hconc : normalize (lit "10 gal tank") = lit "10 gallon tank" := by
    simp +decide [normalize, clean_text, preprocess, replaceAll, splitW, splitWAux,
      wrapAlpha, standardize_units, subAll, firstMatch, tokens, lit, isWordChar,
      padW, units1w, units2w, units3w, units4w, units5w, units6w,
      List.intercalate, List.intersperse]
  refine ⟨fun x => tokens_preprocess x, ?_, hconc, ?_, ?_⟩
  · intro x
    rw [List.all_eq_true]
    intro t ht
    rw [tokens_preprocess x] at ht
    obtain ⟨u, hu, rfl⟩ := List.mem_map.mp ht
    simpa using unitCanon_not_abbrev u
  · rw [hconc]
    simp +decide [tokens, lit]
  · rw [hconc]
    simp +decide [tokens, lit]

/-- Being uppercase, in code point terms. -/
theorem isUpper_iff (c : Char) : c.isUpper = true ↔ 65 ≤ c.toNat ∧ c.toNat ≤ 90 := by
  constructor
  · intro h
    simp only [Char.isUpper, Bool.and_eq_true, decide_eq_true_eq, ge_iff_le] at h
    exact ⟨h.1, h.2⟩
  · intro h
    simp only [Char.isUpper, Bool.and_eq_true, decide_eq_true_eq, ge_iff_le]
    exact ⟨h.1, h.2⟩

/-- Being lowercase, in code point terms. -/
theorem isLower_iff (c : Char) : c.isLower = true ↔ 97 ≤ c.toNat ∧ c.toNat ≤ 122 := by
  constructor
  · intro h
    simp only [Char.isLower, Bool.and_eq_true, decide_eq_true_eq, ge_iff_le] at h
    exact ⟨h.1, h.2⟩
  · intro h
    simp only [Char.isLower, Bool.and_eq_true, decide_eq_true_eq, ge_iff_le]
    exact ⟨h.1, h.2⟩

/-- Being a digit, in code point terms. -/
theorem isDigit_iff (c : Char) : c.isDigit = true ↔ 48 ≤ c.toNat ∧ c.toNat ≤ 57 := by
  constructor
  · intro h
    simp only [Char.isDigit, Bool.and_eq_true, decide_eq_true_eq, ge_iff_le] at h
    exact ⟨h.1, h.2⟩
  · intro h
    simp only [Char.isDigit, Bool.and_eq_true, decide_eq_true_eq, ge_iff_le]
    exact ⟨h.1, h.2⟩

/-- The code point of a character built from a valid code point. -/
theorem ofNat_toNat {n : Nat} (h : Nat.isValidChar n) : (Char.ofNat n).toNat = n := by
  unfold Char.ofNat
  rw [dif_pos h]
  rfl

/-- Lowercasing fixes a character outside the uppercase range. -/
theorem toLower_of_not_upper {c : Char} (h : ¬(65 ≤ c.toNat ∧ c.toNat ≤ 90)) :
    Char.toLower c = c := by
  rw [Char.toLower, if_neg h]

/-- Lowercasing shifts an uppercase character by 32. -/
theorem toLower_of_upper {c : Char} (h : 65 ≤ c.toNat ∧ c.toNat ≤ 90) :
    Char.toLower c = Char.ofNat (c.toNat + 32) := by
  rw [Char.toLower, if_pos h]

/-- A good character is a word character. -/
theorem goodChar_word {c : Char} (h : goodChar c = true) : isWordChar c = true := by
  rw [goodChar, Bool.and_eq_true] at h
  exact h.1

/-- Lowercasing fixes a good character. -/
theorem goodChar_toLower_fix {c : Char} (h : goodChar c = true) : Char.toLower c = c := by
  rw [goodChar, Bool.and_eq_true, beq_iff_eq] at h
  exact h.2

/-- Good characters are never the space, the period, the angle brackets or
any other non-word character. -/
theorem goodChar_ne {c : Char} (h : goodChar c = true) {d : Char}
    (hd : isWordChar d = false) : c ≠ d := by
  intro he
  subst he
  rw [goodChar, hd] at h
  exact Bool.noConfusion h

/-- Lowercasing a word character yields a good character. -/
theorem goodChar_toLower_of_word {c : Char} (h : isWordChar c = true) :
    goodChar (Char.toLower c) = true := by
  by_cases hu : 65 ≤ c.toNat ∧ c.toNat ≤ 90
  · rw [toLower_of_upper hu]
    have hv : Nat.isValidChar (c.toNat + 32) := Or.inl (by omega)
    have ht : (Char.ofNat (c.toNat + 32)).toNat = c.toNat + 32 := ofNat_toNat hv
    have hlow : (Char.ofNat (c.toNat + 32)).isLower = true :=
      (isLower_iff _).mpr (by omega)
    have hfix : Char.toLower (Char.ofNat (c.toNat + 32)) = Char.ofNat (c.toNat + 32) :=
      toLower_of_not_upper (by rw [ht]; omega)
    rw [goodChar, hfix]
    simp [isWordChar, Char.isAlphanum, Char.isAlpha, hlow]
  · rw [toLower_of_not_upper hu, goodChar, toLower_of_not_upper hu]
    simp [h]

/-- A letter run outside the abbreviation table passes the six
substitutions unchanged. -/
theorem unitCanon_of_not_mem {r : Str} (h : r ∉ unitAbbrevWords) : unitCanon r = r := by
  have h1 : r ∉ units1w := fun hm => h (by simp [unitAbbrevWords, hm])
  have h2 : r ∉ units2w := fun hm => h (by simp [unitAbbrevWords, hm])
  have h3 : r ∉ units3w := fun hm => h (by simp [unitAbbrevWords, hm])
  have h4 : r ∉ units4w := fun hm => h (by simp [unitAbbrevWords, hm])
  have h5 : r ∉ units5w := fun hm => h (by simp [unitAbbrevWords, hm])
  have h6 : r ∉ units6w := fun hm => h (by simp [unitAbbrevWords, hm])
  simp [unitCanon, runSub, h1, h2, h3, h4, h5, h6]

/-- Canonizing a letter run twice is canonizing it once. -/
theorem unitCanon_idem (r : Str) : unitCanon (unitCanon r) = unitCanon r :=
  unitCanon_of_not_mem (unitCanon_not_abbrev r)

/-- Canonizing preserves goodness of the characters. -/
theorem unitCanon_good {r : Str} (h : ∀ c ∈ r, goodChar c = true) :
    ∀ c ∈ unitCanon r, goodChar c = true := by
  by_cases hm : r ∈ unitAbbrevWords
  · have hall : ∀ w ∈ unitAbbrevWords, ∀ c ∈ unitCanon w, goodChar c = true := by decide
    exact hall r hm
  · rw [unitCanon_of_not_mem hm]
    exact h

/-- Canonizing keeps a letter run all letters. -/
theorem unitCanon_alpha {r : Str} (h : ∀ c ∈ r, c.isAlpha = true) :
    ∀ c ∈ unitCanon r, c.isAlpha = true := by
  by_cases hm : r ∈ unitAbbrevWords
  · have hall : ∀ w ∈ unitAbbrevWords, ∀ c ∈ unitCanon w, c.isAlpha = true := by decide
    exact hall r hm
  · rw [unitCanon_of_not_mem hm]
    exact h

/-- Canonizing keeps a letter run nonempty. -/
theorem unitCanon_ne_nil {r : Str} (h : r ≠ []) : unitCanon r ≠ [] := by
  by_cases hm : r ∈ unitAbbrevWords
  · have hall : ∀ w ∈ unitAbbrevWords, unitCanon w ≠ [] := by decide
    exact hall r hm
  · rw [unitCanon_of_not_mem hm]
    exact h

/-- The tag stripper fixes a text without an opening angle bracket. -/
theorem clean_text_of_no_lt : ∀ s : Str, (∀ c ∈ s, c ≠ '<') → clean_text s = s := by
  intro s
  induction s with
  | nil =>
    intro _
    simp [clean_text]
  | cons c s ih =>
    intro h
    rw [clean_text, if_neg, ih (fun d hd => h d (List.mem_cons_of_mem _ hd))]
    intro hco
    exact h c (List.mem_cons_self _ _) hco.1

/-- A literal replacement whose pattern holds a period never fires on a
period-free text. -/
theorem replaceAll_dot_noop (pat rep : Str) (hp : '.' ∈ pat) :
    ∀ s : Str, (∀ c ∈ s, c ≠ '.') → replaceAll pat rep s = s := by
  intro s
  induction s with
  | nil =>
    intro _
    simp [replaceAll]
  | cons c s ih =>
    intro h
    rw [replaceAll, if_neg, ih (fun d hd => h d (List.mem_cons_of_mem _ hd))]
    intro hco
    exact h '.' (mem_of_isPrefixOf hco.2 '.' hp) rfl

/-- Lowercasing fixes a string of good characters. -/
theorem map_toLower_fixed {t : Str} (h : ∀ c ∈ t, goodChar c = true) :
    t.map Char.toLower = t := by
  have := List.map_congr_left (fun c hc => goodChar_toLower_fix (h c hc))
  simpa using this

/-- A nonempty all-nonletter string fails the all-letters scan. -/
theorem all_alpha_false {t : Str} (hne : t ≠ []) (hna : ∀ c ∈ t, c.isAlpha = false) :
    t.all Char.isAlpha = false := by
  cases t with
  | nil => exact absurd rfl hne
  | cons c t' => simp [List.all_cons, hna c (List.mem_cons_self _ _)]

/-- Rendering a string of separator pieces gives the string back. -/
theorem renderP_seps : ∀ t : Str, renderP (t.map Piece.sep) = t := by
  intro t
  induction t with
  | nil => rfl
  | cons c t ih => rw [List.map_cons, renderP_sep_cons, ih]

/-- Rendering the pieces of an all-letter token. -/
theorem renderP_tokenPieces_alpha {t : Str} (ha : t.all Char.isAlpha = true) :
    renderP (tokenPieces t) = ' ' :: t ++ [' '] := by
  rw [tokenPieces, if_pos ha, renderP_run_cons]
  rfl

/-- Rendering the pieces of a token with a nonletter character. -/
theorem renderP_tokenPieces_nonalpha {t : Str} (ha : t.all Char.isAlpha = false) :
    renderP (tokenPieces t) = t := by
  rw [tokenPieces, if_neg (by simp [ha]), renderP_seps]

/-- The letter wrapper passes over nonletter characters. -/
theorem wrapAlpha_nonalpha_append : ∀ t s : Str, (∀ c ∈ t, c.isAlpha = false) →
    wrapAlpha (t ++ s) = t ++ wrapAlpha s := by
  intro t
  induction t with
  | nil =>
    intro s _
    rfl
  | cons c t ih =>
    intro s h
    rw [List.cons_append, wrapAlpha, if_neg (by simp [h c (List.mem_cons_self _ _)]),
      ih s (fun d hd => h d (List.mem_cons_of_mem _ hd))]
    rfl

/-- The letter wrapper on one letter run alone. -/
theorem wrapAlpha_run_nil {t : Str} (hne : t ≠ []) (h : ∀ c ∈ t, c.isAlpha = true) :
    wrapAlpha t = ' ' :: t ++ [' '] := by
  cases t with
  | nil => exact absurd rfl hne
  | cons c t' =>
    have h' : ∀ e ∈ t', e.isAlpha = true := fun e he => h e (List.mem_cons_of_mem _ he)
    rw [wrapAlpha, if_pos (h c (List.mem_cons_self _ _))]
    rw [show t'.takeWhile Char.isAlpha = t' from by
      have := takeWhile_append_all h' []
      simpa using this]
    rw [show t'.dropWhile Char.isAlpha = [] from by
      have := dropWhile_append_all h' []
      simpa using this]
    rw [show wrapAlpha [] = [] from by rw [wrapAlpha]]

/-- The letter wrapper on a letter run followed by a nonletter. -/
theorem wrapAlpha_run_cons {t : Str} (hne : t ≠ []) (h : ∀ c ∈ t, c.isAlpha = true)
    {d : Char} (hd : d.isAlpha = false) (s : Str) :
    wrapAlpha (t ++ d :: s) = ' ' :: t ++ ' ' :: d :: wrapAlpha s := by
  cases t with
  | nil => exact absurd rfl hne
  | cons c t' =>
    have h' : ∀ e ∈ t', e.isAlpha = true := fun e he => h e (List.mem_cons_of_mem _ he)
    rw [List.cons_append, wrapAlpha, if_pos (h c (List.mem_cons_self _ _))]
    rw [show (t' ++ d :: s).takeWhile Char.isAlpha = t' from by
      rw [takeWhile_append_all h' (d :: s), List.takeWhile_cons_of_neg (by simp [hd]),
        List.append_nil]]
    rw [show (t' ++ d :: s).dropWhile Char.isAlpha = d :: s from by
      rw [dropWhile_append_all h' (d :: s), List.dropWhile_cons_of_neg (by simp [hd])]]
    rw [wrapAlpha, if_neg (by simp [hd])]

/-- Rebuilding the wrapped text from the tokens: the letter wrapper on a
space join of tokens, each all letters or all nonletters, renders the
token piece list. -/
theorem wrapAlpha_joinPieces : ∀ ts : List Str,
    (∀ t ∈ ts, t ≠ [] ∧
      ((∀ c ∈ t, c.isAlpha = true) ∨ (∀ c ∈ t, c.isAlpha = false))) →
    wrapAlpha (List.intercalate [' '] ts) = renderP (joinPieces ts) := by
  intro ts
  induction ts with
  | nil =>
    intro _
    rw [show List.intercalate [' '] ([] : List Str) = [] from by
        simp [List.intercalate, List.intersperse],
      show wrapAlpha [] = [] from by rw [wrapAlpha]]
    rfl
  | cons t ts ih =>
    intro h
    obtain ⟨hne, hdich⟩ := h t (List.mem_cons_self _ _)
    have hts := fun u hu => h u (List.mem_cons_of_mem _ hu)
    cases ts with
    | nil =>
      rw [show List.intercalate [' '] [t] = t from by
        simp [List.intercalate, List.intersperse]]
      show wrapAlpha t = renderP (tokenPieces t)
      rcases hdich with ha | hna
      · rw [wrapAlpha_run_nil hne ha, renderP_tokenPieces_alpha (List.all_eq_true.mpr ha)]
      · rw [renderP_tokenPieces_nonalpha (all_alpha_false hne hna)]
        have := wrapAlpha_nonalpha_append t [] hna
        simpa [show wrapAlpha [] = [] from by rw [wrapAlpha]] using this
    | cons t' ts' =>
      rw [intercalate_cons2]
      rw [show joinPieces (t :: t' :: ts') =
        tokenPieces t ++ .sep ' ' :: joinPieces (t' :: ts') from rfl]
      rw [renderP_append, renderP_sep_cons, ← ih hts]
      rcases hdich with ha | hna
      · rw [wrapAlpha_run_cons hne ha (by decide) _,
          renderP_tokenPieces_alpha (List.all_eq_true.mpr ha)]
        simp
      · rw [renderP_tokenPieces_nonalpha (all_alpha_false hne hna),
          wrapAlpha_nonalpha_append t _ hna]
        rw [show wrapAlpha (' ' :: List.intercalate [' '] (t' :: ts')) =
          ' ' :: wrapAlpha (List.intercalate [' '] (t' :: ts')) from by
            rw [wrapAlpha, if_neg (by decide)]]

/-- The pieces of one token are wellformed. -/
theorem tokenPieces_WF {t : Str} (hne : t ≠ [])
    (hd : (∀ c ∈ t, c.isAlpha = true) ∨ (∀ c ∈ t, c.isAlpha = false)) :
    ∀ p ∈ tokenPieces t, WFPiece p := by
  rcases hd with ha | hna
  · rw [tokenPieces, if_pos (List.all_eq_true.mpr ha)]
    intro p hp
    rcases List.mem_singleton.mp hp with rfl
    exact ⟨hne, ha⟩
  · rw [tokenPieces, if_neg (by simp [all_alpha_false hne hna])]
    intro p hp
    obtain ⟨c, hc, rfl⟩ := List.mem_map.mp hp
    exact hna c hc

/-- The pieces of a joined token list are wellformed. -/
theorem joinPieces_WF : ∀ ts : List Str,
    (∀ t ∈ ts, t ≠ [] ∧
      ((∀ c ∈ t, c.isAlpha = true) ∨ (∀ c ∈ t, c.isAlpha = false))) →
    ∀ p ∈ joinPieces ts, WFPiece p := by
  intro ts
  induction ts with
  | nil =>
    intro _ p hp
    exact absurd hp (List.not_mem_nil p)
  | cons t ts ih =>
    intro h
    obtain ⟨hne, hdich⟩ := h t (List.mem_cons_self _ _)
    have hts := fun u hu => h u (List.mem_cons_of_mem _ hu)
    cases ts with
    | nil => exact tokenPieces_WF hne hdich
    | cons t' ts' =>
      intro p hp
      rw [show joinPieces (t :: t' :: ts') =
        tokenPieces t ++ .sep ' ' :: joinPieces (t' :: ts') from rfl] at hp
      rcases List.mem_append.mp hp with hp | hp
      · exact tokenPieces_WF hne hdich p hp
      · rcases List.mem_cons.mp hp with rfl | hp
        · show (' ' : Char).isAlpha = false
          decide
        · exact ih hts p hp

/-- Nonspace separator pieces accumulate into the pending token. -/
theorem tokensPAux_seps : ∀ (t t0 : Str) (ps : List Piece), (∀ c ∈ t, c ≠ ' ') →
    tokensPAux t0 (t.map Piece.sep ++ ps) = tokensPAux (t0 ++ t) ps := by
  intro t
  induction t with
  | nil =>
    intro t0 ps _
    simp
  | cons c t ih =>
    intro t0 ps h
    rw [List.map_cons, List.cons_append, tokensPAux,
      if_neg (h c (List.mem_cons_self _ _)),
      ih (t0 ++ [c]) ps (fun d hd => h d (List.mem_cons_of_mem _ hd))]
    rw [show t0 ++ [c] ++ t = t0 ++ c :: t from by simp]

/-- The tokens of a joined token list are the tokens again. -/
theorem tokensPAux_joinPieces : ∀ ts : List Str,
    (∀ t ∈ ts, t ≠ [] ∧ (∀ c ∈ t, c ≠ ' ') ∧
      ((∀ c ∈ t, c.isAlpha = true) ∨ (∀ c ∈ t, c.isAlpha = false))) →
    tokensPAux [] (joinPieces ts) = ts := by
  intro ts
  induction ts with
  | nil =>
    intro _
    rfl
  | cons t ts ih =>
    intro h
    obtain ⟨hne, hns, hdich⟩ := h t (List.mem_cons_self _ _)
    have hts := fun u hu => h u (List.mem_cons_of_mem _ hu)
    cases ts with
    | nil =>
      show tokensPAux [] (tokenPieces t) = [t]
      rcases hdich with ha | hna
      · rw [tokenPieces, if_pos (List.all_eq_true.mpr ha)]
        simp [tokensPAux]
      · rw [tokenPieces, if_neg (by simp [all_alpha_false hne hna])]
        rw [show t.map Piece.sep = t.map Piece.sep ++ [] from (List.append_nil _).symm,
          tokensPAux_seps t [] [] hns]
        simp [tokensPAux, hne]
    | cons t' ts' =>
      show tokensPAux [] (tokenPieces t ++ .sep ' ' :: joinPieces (t' :: ts')) =
        t :: t' :: ts'
      rcases hdich with ha | hna
      · rw [tokenPieces, if_pos (List.all_eq_true.mpr ha)]
        rw [show ([Piece.run t] : List Piece) ++ .sep ' ' :: joinPieces (t' :: ts') =
          .run t :: .sep ' ' :: joinPieces (t' :: ts') from rfl]
        rw [show tokensPAux [] (Piece.run t :: .sep ' ' :: joinPieces (t' :: ts')) =
          t :: tokensPAux [] (joinPieces (t' :: ts')) from by
            rw [tokensPAux, tokensPAux, if_pos rfl]
            simp]
        rw [ih hts]
      · rw [tokenPieces, if_neg (by simp [all_alpha_false hne hna]),
          tokensPAux_seps t [] _ hns]
        rw [show ([] : Str) ++ t = t from rfl]
        rw [tokensPAux, if_pos rfl, ih hts, if_neg hne]
        rfl

/-- Splitting on nonword runs leaves a single all-word-character string
in one piece. -/
theorem splitW_single {t : Str} (hw : ∀ c ∈ t, isWordChar c = true) :
    splitW t = [t] := by
  rw [splitW]
  rw [show t.takeWhile isWordChar = t from by
    have := takeWhile_append_all hw []
    simpa using this]
  rw [show t.dropWhile isWordChar = [] from by
    have := dropWhile_append_all hw []
    simpa using this]
  rw [show splitWAux [] = [] from by rw [splitWAux]]

/-- The splitter helper recovers the tokens after one separator. -/
theorem splitWAux_inter : ∀ (ts : List Str) (t : Str),
    (∀ u ∈ t :: ts, u ≠ [] ∧ ∀ c ∈ u, isWordChar c = true) → ∀ d : Char,
    splitWAux (d :: List.intercalate [' '] (t :: ts)) = t :: ts := by
  intro ts
  induction ts with
  | nil =>
    intro t h d
    obtain ⟨hne, hw⟩ := h t (List.mem_cons_self _ _)
    rw [show List.intercalate [' '] [t] = t from by
      simp [List.intercalate, List.intersperse]]
    rw [splitWAux]
    rw [show t.dropWhile (fun c => !(isWordChar c)) = t from by
      cases t with
      | nil => exact absurd rfl hne
      | cons c t' =>
        exact List.dropWhile_cons_of_neg (by
          simp [hw c (List.mem_cons_self _ _)])]
    rw [show t.takeWhile isWordChar = t from by
      have := takeWhile_append_all hw []
      simpa using this]
    rw [show t.dropWhile isWordChar = [] from by
      have := dropWhile_append_all hw []
      simpa using this]
    rw [show splitWAux [] = [] from by rw [splitWAux]]
  | cons t' ts' ih =>
    intro t h d
    obtain ⟨hne, hw⟩ := h t (List.mem_cons_self _ _)
    have hts := fun u hu => h u (List.mem_cons_of_mem _ hu)
    rw [intercalate_cons2]
    rw [splitWAux]
    rw [show (t ++ ' ' :: List.intercalate [' '] (t' :: ts')).dropWhile
          (fun c => !(isWordChar c)) =
        t ++ ' ' :: List.intercalate [' '] (t' :: ts') from by
      cases t with
      | nil => exact absurd rfl hne
      | cons c t0 =>
        rw [List.cons_append]
        exact List.dropWhile_cons_of_neg (by
          simp [hw c (List.mem_cons_self _ _)])]
    rw [show (t ++ ' ' :: List.intercalate [' '] (t' :: ts')).takeWhile isWordChar =
        t from by
      rw [takeWhile_append_all hw _, List.takeWhile_cons_of_neg (by decide),
        List.append_nil]]
    rw [show (t ++ ' ' :: List.intercalate [' '] (t' :: ts')).dropWhile isWordChar =
        ' ' :: List.intercalate [' '] (t' :: ts') from by
      rw [dropWhile_append_all hw _, List.dropWhile_cons_of_neg (by decide)]]
    rw [ih t' hts ' ']

/-- Splitting the space join of nonempty all-word-character tokens
recovers exactly the tokens. -/
theorem splitW_intercalate : ∀ (t : Str) (ts : List Str),
    (∀ u ∈ t :: ts, u ≠ [] ∧ ∀ c ∈ u, isWordChar c = true) →
    splitW (List.intercalate [' '] (t :: ts)) = t :: ts := by
  intro t ts h
  obtain ⟨hne, hw⟩ := h t (List.mem_cons_self _ _)
  have hts := fun u hu => h u (List.mem_cons_of_mem _ hu)
  cases ts with
  | nil =>
    rw [show List.intercalate [' '] [t] = t from by
      simp [List.intercalate, List.intersperse]]
    exact splitW_single hw
  | cons t' ts' =>
    rw [intercalate_cons2, splitW]
    rw [show (t ++ ' ' :: List.intercalate [' '] (t' :: ts')).takeWhile isWordChar =
        t from by
      rw [takeWhile_append_all hw _, List.takeWhile_cons_of_neg (by decide),
        List.append_nil]]
    rw [show (t ++ ' ' :: List.intercalate [' '] (t' :: ts')).dropWhile isWordChar =
        ' ' :: List.intercalate [' '] (t' :: ts') from by
      rw [dropWhile_append_all hw _, List.dropWhile_cons_of_neg (by decide)]]
    rw [splitWAux_inter ts' t' hts ' ']

/-- Every piece the splitter emits is made of word characters. -/
theorem splitWAux_word : ∀ (n : Nat) (s : Str), s.length ≤ n →
    ∀ w ∈ splitWAux s, ∀ c ∈ w, isWordChar c = true := by
  intro n
  induction n with
  | zero =>
    intro s hs
    rw [List.eq_nil_of_length_eq_zero (Nat.le_zero.mp hs)]
    intro w hw
    rw [show splitWAux [] = [] from by rw [splitWAux]] at hw
    exact absurd hw (List.not_mem_nil w)
  | succ n ih =>
    intro s hs w hw
    cases s with
    | nil =>
      rw [show splitWAux [] = [] from by rw [splitWAux]] at hw
      exact absurd hw (List.not_mem_nil w)
    | cons x s' =>
      simp only [List.length_cons] at hs
      rw [splitWAux] at hw
      rcases List.mem_cons.mp hw with rfl | hw
      · intro c hc
        have := List.mem_takeWhile_imp hc
        simpa using this
      · have hlen : (((s'.dropWhile (fun c => !(isWordChar c))).dropWhile
            isWordChar)).length ≤ n := by
          have h1 : (s'.dropWhile (fun c => !(isWordChar c))).length ≤ s'.length :=
            (List.dropWhile_sublist _).length_le
          have h2 : ((s'.dropWhile (fun c => !(isWordChar c))).dropWhile
              isWordChar).length ≤ (s'.dropWhile (fun c => !(isWordChar c))).length :=
            (List.dropWhile_sublist _).length_le
          omega
        exact ih _ hlen w hw

/-- Every piece re.split emits is made of word characters. -/
theorem splitW_word (s : Str) : ∀ w ∈ splitW s, ∀ c ∈ w, isWordChar c = true := by
  intro w hw
  rw [splitW] at hw
  rcases List.mem_cons.mp hw with rfl | hw
  · intro c hc
    have := List.mem_takeWhile_imp hc
    simpa using this
  · exact splitWAux_word _ _ le_rfl w hw

/-- A character of a space join is the space or lies in one word. -/
theorem mem_intercalate_space : ∀ (ws : List Str) (c : Char),
    c ∈ List.intercalate [' '] ws → c = ' ' ∨ ∃ w ∈ ws, c ∈ w := by
  intro ws
  induction ws with
  | nil =>
    intro c hc
    rw [show List.intercalate [' '] ([] : List Str) = [] from by
      simp [List.intercalate, List.intersperse]] at hc
    exact absurd hc (List.not_mem_nil c)
  | cons w ws ih =>
    intro c hc
    cases ws with
    | nil =>
      rw [show List.intercalate [' '] [w] = w from by
        simp [List.intercalate, List.intersperse]] at hc
      exact Or.inr ⟨w, List.mem_cons_self _ _, hc⟩
    | cons w' ws' =>
      rw [intercalate_cons2] at hc
      rcases List.mem_append.mp hc with hc | hc
      · exact Or.inr ⟨w, List.mem_cons_self _ _, hc⟩
      · rcases List.mem_cons.mp hc with rfl | hc
        · exact Or.inl rfl
        · rcases ih c hc with hc | ⟨u, hu, hcu⟩
          · exact Or.inl hc
          · exact Or.inr ⟨u, List.mem_cons_of_mem _ hu, hcu⟩

/-- A character of a token of a piece list lies in the pending block or in
one of the pieces. -/
theorem tokensPAux_chars : ∀ (ps : List Piece) (t0 t : Str), t ∈ tokensPAux t0 ps →
    ∀ c ∈ t, c ∈ t0 ∨ ∃ p ∈ ps, c ∈ p.chars := by
  intro ps
  induction ps with
  | nil =>
    intro t0 t ht c hc
    rw [tokensPAux] at ht
    by_cases h : t0 = []
    · rw [if_pos h] at ht
      exact absurd ht (List.not_mem_nil t)
    · rw [if_neg h] at ht
      rcases List.mem_singleton.mp ht with rfl
      exact Or.inl hc
  | cons p ps ih =>
    intro t0 t ht c hc
    cases p with
    | run r =>
      rw [tokensPAux] at ht
      rcases List.mem_append.mp ht with ht | ht
      · by_cases h : t0 = []
        · rw [if_pos h] at ht
          exact absurd ht (List.not_mem_nil t)
        · rw [if_neg h] at ht
          rcases List.mem_singleton.mp ht with rfl
          exact Or.inl hc
      · rcases List.mem_cons.mp ht with rfl | ht
        · exact Or.inr ⟨_, List.mem_cons_self _ _, hc⟩
        · rcases ih [] t ht c hc with h | ⟨q, hq, hcq⟩
          · exact absurd h (List.not_mem_nil c)
          · exact Or.inr ⟨q, List.mem_cons_of_mem _ hq, hcq⟩
    | sep d =>
      rw [tokensPAux] at ht
      by_cases hd : d = ' '
      · rw [if_pos hd] at ht
        rcases List.mem_append.mp ht with ht | ht
        · by_cases h : t0 = []
          · rw [if_pos h] at ht
            exact absurd ht (List.not_mem_nil t)
          · rw [if_neg h] at ht
            rcases List.mem_singleton.mp ht with rfl
            exact Or.inl hc
        · rcases ih [] t ht c hc with h | ⟨q, hq, hcq⟩
          · exact absurd h (List.not_mem_nil c)
          · exact Or.inr ⟨q, List.mem_cons_of_mem _ hq, hcq⟩
      · rw [if_neg hd] at ht
        rcases ih (t0 ++ [d]) t ht c hc with h | ⟨q, hq, hcq⟩
        · rcases List.mem_append.mp h with h | h
          · exact Or.inl h
          · rcases List.mem_singleton.mp h with rfl
            exact Or.inr ⟨_, List.mem_cons_self _ _, List.mem_singleton.mpr rfl⟩
        · exact Or.inr ⟨q, List.mem_cons_of_mem _ hq, hcq⟩

/-- Every token of a wellformed piece list is all letters or all
nonletters. -/
theorem tokensPAux_dich : ∀ (ps : List Piece), (∀ p ∈ ps, WFPiece p) →
    ∀ t0 : Str, (∀ c ∈ t0, c.isAlpha = false) →
    ∀ t ∈ tokensPAux t0 ps,
      (∀ c ∈ t, c.isAlpha = true) ∨ (∀ c ∈ t, c.isAlpha = false) := by
  intro ps
  induction ps with
  | nil =>
    intro _ t0 h0 t ht
    rw [tokensPAux] at ht
    by_cases h : t0 = []
    · rw [if_pos h] at ht
      exact absurd ht (List.not_mem_nil t)
    · rw [if_neg h] at ht
      rcases List.mem_singleton.mp ht with rfl
      exact Or.inr h0
  | cons p ps ih =>
    intro hwf t0 h0 t ht
    have hwfp := hwf p (List.mem_cons_self _ _)
    have hwfps := fun q hq => hwf q (List.mem_cons_of_mem _ hq)
    cases p with
    | run r =>
      rw [tokensPAux] at ht
      rcases List.mem_append.mp ht with ht | ht
      · by_cases h : t0 = []
        · rw [if_pos h] at ht
          exact absurd ht (List.not_mem_nil t)
        · rw [if_neg h] at ht
          rcases List.mem_singleton.mp ht with rfl
          exact Or.inr h0
      · rcases List.mem_cons.mp ht with rfl | ht
        · exact Or.inl hwfp.2
        · exact ih hwfps [] (fun c hc => absurd hc (List.not_mem_nil c)) t ht
    | sep d =>
      rw [tokensPAux] at ht
      by_cases hd : d = ' '
      · rw [if_pos hd] at ht
        rcases List.mem_append.mp ht with ht | ht
        · by_cases h : t0 = []
          · rw [if_pos h] at ht
            exact absurd ht (List.not_mem_nil t)
          · rw [if_neg h] at ht
            rcases List.mem_singleton.mp ht with rfl
            exact Or.inr h0
        · exact ih hwfps [] (fun c hc => absurd hc (List.not_mem_nil c)) t ht
      · rw [if_neg hd] at ht
        refine ih hwfps (t0 ++ [d]) ?_ t ht
        intro c hc
        rcases List.mem_append.mp hc with hc | hc
        · exact h0 c hc
        · rcases List.mem_singleton.mp hc with rfl
          exact hwfp

/-- Every token preprocess emits is nonempty, made of good characters,
all letters or all nonletters, and already canonical. -/
theorem preprocess_tokens_good (x : Str) : ∀ t ∈ tokens (preprocess x),
    t ≠ [] ∧ (∀ c ∈ t, goodChar c = true) ∧
    ((∀ c ∈ t, c.isAlpha = true) ∨ (∀ c ∈ t, c.isAlpha = false)) ∧
    unitCanon t = t := by
  intro t ht
  rw [tokens_preprocess] at ht
  obtain ⟨u, hu, rfl⟩ := List.mem_map.mp ht
  have hune : u ≠ [] := (tokens_mem_props _ _ le_rfl u hu).1
  have hj : preJoin x = renderP (piecesOf (List.intercalate [' ']
      ((splitW (replaceAll (lit "in.") (lit " inch ") x)).map
        (List.map Char.toLower)))) := wrapAlpha_eq_renderP _
  have hwfJ := WF_piecesOf (List.intercalate [' ']
    ((splitW (replaceAll (lit "in.") (lit " inch ") x)).map (List.map Char.toLower)))
  have hpj : tokens (preJoin x) = tokensPAux [] (piecesOf (List.intercalate [' ']
      ((splitW (replaceAll (lit "in.") (lit " inch ") x)).map
        (List.map Char.toLower)))) := by
    rw [hj]
    have h0 := tokens_renderP _ hwfJ []
      (fun c hc => absurd hc (List.not_mem_nil c))
    rwa [List.nil_append] at h0
  have hu' := hu
  rw [hpj] at hu'
  have hgood : ∀ c ∈ u, goodChar c = true := by
    intro c hc
    have hsf : c ≠ ' ' := (tokens_mem_props _ _ le_rfl u hu).2 c hc
    rcases tokensPAux_chars _ [] u hu' c hc with h | ⟨p, hp, hcp⟩
    · exact absurd h (List.not_mem_nil c)
    · have hcj := piecesOf_chars _ p hp c hcp
      rcases mem_intercalate_space _ c hcj with rfl | ⟨w, hw, hcw⟩
      · exact absurd rfl hsf
      · obtain ⟨w0, hw0, rfl⟩ := List.mem_map.mp hw
        obtain ⟨d, hd, rfl⟩ := List.mem_map.mp hcw
        exact goodChar_toLower_of_word (splitW_word _ w0 hw0 d hd)
  have hdich : (∀ c ∈ u, c.isAlpha = true) ∨ (∀ c ∈ u, c.isAlpha = false) :=
    tokensPAux_dich _ hwfJ []
      (fun c hc => absurd hc (List.not_mem_nil c)) u hu'
  refine ⟨unitCanon_ne_nil hune, unitCanon_good hgood, ?_, unitCanon_idem u⟩
  rcases hdich with ha | hna
  · exact Or.inl (unitCanon_alpha ha)
  · rw [unitCanon_of_nonalpha hna]
    exact Or.inr hna

set_option maxRecDepth 8000 in
/-- preprocess fixes the space join of good tokens: the second application
of the pipeline finds nothing left to replace, split, lowercase, wrap or
standardize. -/
theorem preprocess_fixed_on_good : ∀ ts : List Str,
    (∀ t ∈ ts,
      t ≠ [] ∧ (∀ c ∈ t, goodChar c = true) ∧
      ((∀ c ∈ t, c.isAlpha = true) ∨ (∀ c ∈ t, c.isAlpha = false)) ∧
      unitCanon t = t) →
    preprocess (List.intercalate [' '] ts) = List.intercalate [' '] ts := by
  intro ts h
  cases ts with
  | nil =>
    rw [show List.intercalate [' '] ([] : List Str) = [] from by
      simp [List.intercalate, List.intersperse]]
    simp +decide [preprocess, replaceAll, splitW, splitWAux, wrapAlpha,
      standardize_units, subAll, firstMatch, tokens, lit, isWordChar, padW,
      units1w, units2w, units3w, units4w, units5w, units6w,
      List.intercalate, List.intersperse]
  | cons t ts' =>
    have hnospace : ∀ u ∈ t :: ts', ∀ c ∈ u, c ≠ ' ' :=
      fun u hu c hc => goodChar_ne ((h u hu).2.1 c hc) (by decide)
    have hword : ∀ u ∈ t :: ts', u ≠ [] ∧ ∀ c ∈ u, isWordChar c = true :=
      fun u hu => ⟨(h u hu).1, fun c hc => goodChar_word ((h u hu).2.1 c hc)⟩
    have hdich : ∀ u ∈ t :: ts', u ≠ [] ∧
        ((∀ c ∈ u, c.isAlpha = true) ∨ (∀ c ∈ u, c.isAlpha = false)) :=
      fun u hu => ⟨(h u hu).1, (h u hu).2.2.1⟩
    have hnodot : ∀ c ∈ List.intercalate [' '] (t :: ts'), c ≠ '.' := by
      intro c hc
      rcases mem_intercalate_space _ c hc with rfl | ⟨w, hw, hcw⟩
      · decide
      · exact goodChar_ne ((h w hw).2.1 c hcw) (by decide)
    have h1 : replaceAll (lit "in.") (lit " inch ")
        (List.intercalate [' '] (t :: ts')) = List.intercalate [' '] (t :: ts') :=
      replaceAll_dot_noop _ _ (by decide) _ hnodot
    have h2 : splitW (List.intercalate [' '] (t :: ts')) = t :: ts' :=
      splitW_intercalate t ts' hword
    have h3 : (t :: ts').map (List.map Char.toLower) = t :: ts' := by
      have := List.map_congr_left (fun u hu => map_toLower_fixed ((h u hu).2.1))
      simpa using this
    have h4 : wrapAlpha (List.intercalate [' '] (t :: ts')) =
        renderP (joinPieces (t :: ts')) := wrapAlpha_joinPieces _ hdich
    have h5 : tokens (standardize_units (renderP (joinPieces (t :: ts')))) =
        (tokensPAux [] (joinPieces (t :: ts'))).map unitCanon :=
      tokens_standardize _ (joinPieces_WF _ hdich)
    have h6 : tokensPAux [] (joinPieces (t :: ts')) = t :: ts' :=
      tokensPAux_joinPieces _
        (fun u hu => ⟨(h u hu).1, hnospace u hu, (h u hu).2.2.1⟩)
    have h7 : (t :: ts').map unitCanon = t :: ts' := by
      have := List.map_congr_left (fun u hu => (h u hu).2.2.2)
      simpa using this
    show List.intercalate [' '] (tokens (standardize_units (wrapAlpha
      (List.intercalate [' '] ((splitW (replaceAll (lit "in.") (lit " inch ")
        (List.intercalate [' '] (t :: ts')))).map (List.map Char.toLower)))))) =
      List.intercalate [' '] (t :: ts')
    rw [h1, h2, h3, h4, h5, h6, h7]

/-- The output of preprocess never holds an opening angle bracket. -/
theorem preprocess_no_lt (x : Str) : ∀ c ∈ preprocess x, c ≠ '<' := by
  intro c hc
  have hdec : preprocess x =
      List.intercalate [' '] (tokens (standardize_units (preJoin x))) := rfl
  have hT : tokens (preprocess x) = tokens (standardize_units (preJoin x)) := by
    rw [hdec]
    exact tokens_intercalate _ (tokens_mem_props _ _ le_rfl)
  rw [hdec] at hc
  rcases mem_intercalate_space _ c hc with rfl | ⟨w, hw, hcw⟩
  · decide
  · have hg := preprocess_tokens_good x w (by rw [hT]; exact hw)
    exact goodChar_ne (hg.2.1 c hcw) (by decide)

/-- C6: the text normalizer is idempotent: a second application of the
full normalizer (tag stripping then preprocess), and likewise of the
pipeline function preprocess alone, returns its input unchanged. -/
theorem claim_C6_idempotent :
    (∀ x : Str, normalize (normalize x) = normalize x) ∧
    (∀ x : Str, preprocess (preprocess x) = preprocess x) := by
  have hpp : ∀ x : Str, preprocess (preprocess x) = preprocess x := by
    intro x
    have hdec : preprocess x =
        List.intercalate [' '] (tokens (standardize_units (preJoin x))) := rfl
    have hT : tokens (preprocess x) = tokens (standardize_units (preJoin x)) := by
      rw [hdec]
      exact tokens_intercalate _ (tokens_mem_props _ _ le_rfl)
    rw [hdec]
    apply preprocess_fixed_on_good
    intro t ht
    exact preprocess_tokens_good x t (by rw [hT]; exact ht)
  refine ⟨?_, hpp⟩
  intro x
  simp only [normalize]
  rw [clean_text_of_no_lt _ (preprocess_no_lt _)]
  exact hpp _

/-- Membership in uniqueFirst agrees with plain membership. -/
theorem mem_uniqueFirst {α : Type} [DecidableEq α] (a : α) (l : List α) :
    a ∈ uniqueFirst l ↔ a ∈ l := by
  induction l using uniqueFirst.induct with
  | case1 => simp [uniqueFirst]
  | case2 x xs ih =>
    rw [uniqueFirst]
    by_cases hax : a = x
    · simp [hax]
    · simp only [List.mem_cons, hax, false_or]
      rw [ih]
      simp [List.mem_filter, hax]

/-- uniqueFirst yields pairwise distinct values. -/
theorem nodup_uniqueFirst {α : Type} [DecidableEq α] (l : List α) :
    (uniqueFirst l).Nodup := by
  induction l using uniqueFirst.induct with
  | case1 =>
    rw [uniqueFirst]
    exact List.nodup_nil
  | case2 x xs ih =>
    rw [uniqueFirst]
    refine List.Nodup.cons ?_ ih
    intro hx
    rw [mem_uniqueFirst] at hx
    simp [List.mem_filter] at hx

/-- C1: whenever the Dataset Builder succeeds, with perm the shuffled
arrangement of the distinct query ids, the sets of query ids of the train
and dev splits are disjoint and together are exactly the distinct query
ids of the locale-filtered, title-joined input. -/
theorem claim_C1_split_partition (pairs : List PairRow) (cat : List CatRow)
    (locale : String) (n_dev : Nat) (perm : List Nat) (tr dv : List Row)
    (hok : buildSplits pairs cat locale n_dev perm = .ok (tr, dv))
    (hperm : perm.Perm (listQueryId pairs cat locale)) :
    (tr.map (·.query_id)).toFinset ∩ (dv.map (·.query_id)).toFinset = ∅ ∧
    (tr.map (·.query_id)).toFinset ∪ (dv.map (·.query_id)).toFinset =
      ((buildDf pairs cat locale).map (·.query_id)).toFinset := by
  obtain ⟨htr, hdv⟩ := buildSplits_ok hok
  subst htr
  subst hdv
  have hnd : perm.Nodup := by
    rw [hperm.nodup_iff]
    exact nodup_uniqueFirst _
  have hsplit := List.take_append_drop n_dev perm
  have hnd2 : (perm.take n_dev ++ perm.drop n_dev).Nodup := by
    rw [hsplit]
    exact hnd
  rw [List.nodup_append] at hnd2
  have hdisj := hnd2.2.2
  constructor
  · ext a
    simp only [Finset.mem_inter, List.mem_toFinset, List.mem_map,
      Finset.not_mem_empty, iff_false, not_and]
    rintro ⟨r1, hr1, rfl⟩ ⟨r2, hr2, he⟩
    rw [List.mem_filter] at hr1 hr2
    have m1 : r1.query_id ∈ perm.drop n_dev := by simpa using hr1.2
    have m2 : r2.query_id ∈ perm.take n_dev := by simpa using hr2.2
    exact hdisj m2 (by rw [he]; exact m1)
  · ext a
    simp only [Finset.mem_union, List.mem_toFinset, List.mem_map]
    constructor
    · rintro (⟨r, hr, rfl⟩ | ⟨r, hr, rfl⟩) <;>
        exact ⟨r, List.mem_of_mem_filter hr, rfl⟩
    · rintro ⟨r, hr, rfl⟩
      have hmem : r.query_id ∈ perm := by
        rw [hperm.mem_iff, listQueryId, mem_uniqueFirst]
        exact List.mem_map_of_mem _ hr
      rw [← hsplit] at hmem
      rcases List.mem_append.mp hmem with h | h
      · right
        exact ⟨r, by rw [List.mem_filter]; exact ⟨hr, by simpa using h⟩, rfl⟩
      · left
        exact ⟨r, by rw [List.mem_filter]; exact ⟨hr, by simpa using h⟩, rfl⟩

/-- Witness for C1 on the concrete two-row input: train holds query id 2,
dev holds query id 1, and together they are the distinct ids of the joined
input. -/
theorem claim_C1_split_partition_witness :
    ([rowW2].map (·.query_id)).toFinset ∩ ([rowW1].map (·.query_id)).toFinset = ∅ ∧
    ([rowW2].map (·.query_id)).toFinset ∪ ([rowW1].map (·.query_id)).toFinset =
      ((buildDf pairsW catW "us").map (·.query_id)).toFinset :=
  claim_C1_split_partition pairsW catW "us" 1 [1, 2] [rowW2] [rowW1]
    (by norm_num [buildSplits, buildDf, mergeTitles, uniqueFirst, pairsW,
      catW, rowW1, rowW2, esci_label2gain, List.filterMap_cons, Option.map_some'])
    (by rw [show listQueryId pairsW catW "us" = [1, 2] from by
        norm_num [listQueryId, buildDf, mergeTitles, uniqueFirst, pairsW, catW,
          esci_label2gain, List.filterMap_cons, Option.map_some']])

/-- C3 counterexample: the locale-us branch stops with AttributeError on
the missing target column raised inside augment_text, not with the
NameError of the final evaluation, and its event list is empty: neither
model.fit nor model.save has happened, so no model is persisted before
the failure. -/
theorem claim_C3_counterexample :
    runStmts usProgram initialEnv [] = ([], some (.attributeError "target")) := by
  decide

/-- Appending one value extends uniqueFirst exactly when the value is
new. -/
theorem uniqueFirst_append {α : Type} [DecidableEq α] (l : List α) (a : α) :
    uniqueFirst (l ++ [a]) =
      if a ∈ l then uniqueFirst l else uniqueFirst l ++ [a] := by
  induction l using uniqueFirst.induct with
  | case1 =>
    simp [uniqueFirst]
  | case2 x xs ih =>
    rw [List.cons_append, uniqueFirst, uniqueFirst]
    by_cases hax : a = x
    · subst hax
      have : (xs ++ [a]).filter (fun y => y ≠ a) = xs.filter (fun y => y ≠ a) := by
        simp [List.filter_append]
      simp [this]
    · have : (xs ++ [a]).filter (fun y => y ≠ x) = xs.filter (fun y => y ≠ x) ++ [a] := by
        simp [List.filter_append, hax]
      rw [this, ih]
      have hmem : a ∈ xs.filter (fun y => y ≠ x) ↔ a ∈ xs := by
        simp [List.mem_filter, hax]
      by_cases hxs : a ∈ xs
      · simp [hmem.mpr hxs, hxs, hax]
      · simp [hxs, hax, fun h => hxs (hmem.mp h)]

/-- posSet over one more row: the title joins the positive set of the
row's own query text when its gain is positive. -/
theorem posSet_append (rows : List Row) (r : Row) (q : String) :
    posSet (rows ++ [r]) q =
      if q = r.query ∧ 0 < r.gain then insert r.product_title (posSet rows q)
      else posSet rows q := by
  simp only [posSet, List.filter_append, List.map_append, List.toFinset_append]
  by_cases h1 : q = r.query
  · by_cases h2 : 0 < r.gain
    · have he : List.filter (fun s => s.query == q && decide (0 < s.gain)) [r] = [r] := by
        simp [h1.symm, h2]
      rw [if_pos ⟨h1, h2⟩, he]
      simp [Finset.union_comm, Finset.insert_eq]
    · have he : List.filter (fun s => s.query == q && decide (0 < s.gain)) [r] = [] := by
        simp [h2]
      rw [if_neg (by tauto), he]
      simp
  · have hne : ¬ (r.query = q) := fun hh => h1 hh.symm
    have he : List.filter (fun s => s.query == q && decide (0 < s.gain)) [r] = [] := by
      simp [hne]
    rw [if_neg (by tauto), he]
    simp

/-- negSet over one more row, the complementary statement. -/
theorem negSet_append (rows : List Row) (r : Row) (q : String) :
    negSet (rows ++ [r]) q =
      if q = r.query ∧ ¬ 0 < r.gain then insert r.product_title (negSet rows q)
      else negSet rows q := by
  simp only [negSet, List.filter_append, List.map_append, List.toFinset_append]
  by_cases h1 : q = r.query
  · by_cases h2 : 0 < r.gain
    · have he : List.filter (fun s => s.query == q && !(decide (0 < s.gain))) [r] = [] := by
        simp [h2]
      rw [if_neg (by tauto), he]
      simp
    · have he : List.filter (fun s => s.query == q && !(decide (0 < s.gain))) [r] = [r] := by
        simp [h1.symm, h2]
      rw [if_pos ⟨h1, h2⟩, he]
      simp [Finset.union_comm, Finset.insert_eq]
  · have hne : ¬ (r.query = q) := fun hh => h1 hh.symm
    have he : List.filter (fun s => s.query == q && !(decide (0 < s.gain))) [r] = [] := by
      simp [hne]
    rw [if_neg (by tauto), he]
    simp

/-- A query text that appears in no row has an empty positive set. -/
theorem posSet_of_not_mem {rows : List Row} {q : String}
    (h : q ∉ rows.map (·.query)) : posSet rows q = ∅ := by
  have : rows.filter (fun s => s.query == q && decide (0 < s.gain)) = [] := by
    rw [List.filter_eq_nil]
    intro r hr
    have : r.query ≠ q := fun he => h (by
      rw [← he]
      exact List.mem_map_of_mem _ hr)
    simp [this]
  simp [posSet, this]

/-- A query text that appears in no row has an empty negative set. -/
theorem negSet_of_not_mem {rows : List Row} {q : String}
    (h : q ∉ rows.map (·.query)) : negSet rows q = ∅ := by
  have : rows.filter (fun s => s.query == q && !(decide (0 < s.gain))) = [] := by
    rw [List.filter_eq_nil]
    intro r hr
    have : r.query ≠ q := fun he => h (by
      rw [← he]
      exact List.mem_map_of_mem _ hr)
    simp [this]
  simp [negSet, this]

/-- Looking a query up in the swapped enumeration dictionary fails exactly
for absent queries. -/
theorem lookup_swap_none_iff (L : List String) (q : String) :
    ∀ n : Nat, ((L.enumFrom n).map (fun p => (p.2, p.1))).lookup q = none ↔ q ∉ L := by
  induction L with
  | nil =>
    intro n
    simp [List.enumFrom]
  | cons x xs ih =>
    intro n
    by_cases hqx : q = x
    · subst hqx
      simp [List.enumFrom, List.lookup_cons]
    · have hbeq : (q == x) = false := by simp [hqx]
      simp only [List.enumFrom, List.map_cons, List.lookup_cons, hbeq, List.mem_cons]
      rw [ih (n + 1)]
      simp [hqx]

/-- A successful lookup in the swapped enumeration dictionary returns a
position of the query. -/
theorem lookup_swap_some (L : List String) (q : String) :
    ∀ (n i : Nat), ((L.enumFrom n).map (fun p => (p.2, p.1))).lookup q = some i →
      ∃ j, i = n + j ∧ L.get? j = some q := by
  induction L with
  | nil =>
    intro n i h
    simp [List.enumFrom] at h
  | cons x xs ih =>
    intro n i h
    by_cases hqx : q = x
    · subst hqx
      have hbeq : (q == q) = true := by simp
      simp only [List.enumFrom, List.map_cons, List.lookup_cons, hbeq] at h
      have hni : n = i := Option.some.inj h
      exact ⟨0, by omega, by simp⟩
    · have hbeq : (q == x) = false := by simp [hqx]
      simp only [List.enumFrom, List.map_cons, List.lookup_cons, hbeq] at h
      obtain ⟨j, hij, hg⟩ := ih (n + 1) i h
      exact ⟨j + 1, by omega, by simpa using hg⟩

/-- Looking a numeric key up among enumerated, keyed entries. -/
theorem lookup_enumFrom_map {β : Type} (g : String → β) (L : List String) :
    ∀ (n k : Nat),
      List.lookup k ((L.enumFrom n).map (fun p => (p.1, g p.2))) =
        if n ≤ k ∧ k - n < L.length then (L.get? (k - n)).map g else none := by
  induction L with
  | nil =>
    intro n k
    simp [List.enumFrom]
  | cons x xs ih =>
    intro n k
    simp only [List.length_cons]
    by_cases hkn : k = n
    · subst hkn
      simp [List.enumFrom, List.lookup_cons]
    · have hbeq : (k == n) = false := by simp [hkn]
      simp only [List.enumFrom, List.map_cons, List.lookup_cons, hbeq]
      rw [ih (n + 1) k]
      by_cases hle : n + 1 ≤ k ∧ k - (n + 1) < xs.length
      · rw [if_pos hle, if_pos (show n ≤ k ∧ k - n < xs.length + 1 by omega)]
        have hkk : k - n = (k - (n + 1)) + 1 := by omega
        rw [hkk, List.get?_cons_succ]
      · rw [if_neg hle, if_neg (fun hc => hle ⟨by omega, by omega⟩)]

/-- Indices of equal values in a duplicate-free list agree. -/
theorem nodup_get?_inj {L : List String} (h : L.Nodup) {i j : Nat} {q : String}
    (hi : L.get? i = some q) (hj : L.get? j = some q) : i = j := by
  rw [List.get?_eq_some] at hi hj
  obtain ⟨hi1, hi2⟩ := hi
  obtain ⟨hj1, hj2⟩ := hj
  have := (List.Nodup.get_inj_iff h).mp (hi2.trans hj2.symm)
  simpa using this

/-- One iteration of the dev_samples loop turns the state of a processed
prefix into the state of the prefix extended by the processed row. -/
theorem devStep_stateOf (pre : List Row) (r : Row) :
    devStep (stateOf pre) r = stateOf (pre ++ [r]) := by
  have hnd : (uniqueFirst (pre.map (·.query))).Nodup := nodup_uniqueFirst _
  by_cases hmem : r.query ∈ pre.map (·.query)
  case pos =>
    have hU : uniqueFirst ((pre ++ [r]).map (·.query)) =
        uniqueFirst (pre.map (·.query)) := by
      rw [List.map_append]
      simp only [List.map_cons, List.map_nil]
      rw [uniqueFirst_append, if_pos hmem]
    have hUmem : r.query ∈ uniqueFirst (pre.map (·.query)) :=
      (mem_uniqueFirst _ _).mpr hmem
    cases hl : (q2iOf (pre.map (·.query))).lookup r.query with
    | none =>
      exfalso
      rw [q2iOf, show (uniqueFirst (pre.map (·.query))).enum =
        (uniqueFirst (pre.map (·.query))).enumFrom 0 from rfl,
        lookup_swap_none_iff] at hl
      exact hl hUmem
    | some i =>
      have hget : (uniqueFirst (pre.map (·.query))).get? i = some r.query := by
        have := lookup_swap_some (uniqueFirst (pre.map (·.query))) r.query 0 i
          (by rw [q2iOf] at hl; exact hl)
        obtain ⟨j, hij, hg⟩ := this
        rw [hij, Nat.zero_add]
        exact hg
      have hilt : i < (uniqueFirst (pre.map (·.query))).length := by
        rw [List.get?_eq_some] at hget
        exact hget.1
      have hds : (devSpec pre).lookup i =
          some ⟨r.query, posSet pre r.query, negSet pre r.query⟩ := by
        rw [devSpec, show (uniqueFirst (pre.map (·.query))).enum =
          (uniqueFirst (pre.map (·.query))).enumFrom 0 from rfl,
          lookup_enumFrom_map (fun q => (⟨q, posSet pre q, negSet pre q⟩ : DevEntry)),
          if_pos ⟨Nat.zero_le i, by omega⟩, Nat.sub_zero, hget, Option.map_some']
      show devStep ⟨q2iOf (pre.map (·.query)), devSpec pre⟩ r = _
      rw [devStep]
      simp only [hl, hds]
      rw [stateOf, q2iOf, q2iOf, hU]
      refine congrArg _ ?_
      rw [devSpec, devSpec, hU, List.map_map]
      refine List.map_congr_left ?_
      rintro ⟨j, qj⟩ hjq
      have hgetj : (uniqueFirst (pre.map (·.query))).get? j = some qj := by
        rw [List.mem_enum_iff_get?] at hjq
        exact hjq
      simp only [Function.comp_apply]
      by_cases hji : j = i
      · subst hji
        have hqj : qj = r.query := by
          rw [hget] at hgetj
          exact (Option.some.inj hgetj).symm
        subst hqj
        rw [if_pos rfl]
        by_cases hgn : 0 < r.gain
        · rw [if_pos hgn, posSet_append, if_pos ⟨rfl, hgn⟩,
            negSet_append, if_neg (by tauto)]
        · rw [if_neg hgn, posSet_append, if_neg (by tauto),
            negSet_append, if_pos ⟨rfl, hgn⟩]
      · rw [if_neg hji]
        have hqj : qj ≠ r.query := by
          intro he
          exact hji (nodup_get?_inj hnd (he ▸ hgetj) hget)
        rw [posSet_append, if_neg (by tauto), negSet_append, if_neg (by tauto)]
  case neg =>
    have hU : uniqueFirst ((pre ++ [r]).map (·.query)) =
        uniqueFirst (pre.map (·.query)) ++ [r.query] := by
      rw [List.map_append]
      simp only [List.map_cons, List.map_nil]
      rw [uniqueFirst_append, if_neg hmem]
    have hUmem : r.query ∉ uniqueFirst (pre.map (·.query)) :=
      fun h => hmem ((mem_uniqueFirst _ _).mp h)
    have hl : (q2iOf (pre.map (·.query))).lookup r.query = none := by
      rw [q2iOf, show (uniqueFirst (pre.map (·.query))).enum =
        (uniqueFirst (pre.map (·.query))).enumFrom 0 from rfl,
        lookup_swap_none_iff]
      exact hUmem
    have hq2ilen : (q2iOf (pre.map (·.query))).length =
        (uniqueFirst (pre.map (·.query))).length := by
      simp [q2iOf]
    have hds : (devSpec pre).lookup (q2iOf (pre.map (·.query))).length = none := by
      rw [devSpec, show (uniqueFirst (pre.map (·.query))).enum =
        (uniqueFirst (pre.map (·.query))).enumFrom 0 from rfl,
        lookup_enumFrom_map (fun q => (⟨q, posSet pre q, negSet pre q⟩ : DevEntry)),
        if_neg (by omega)]
    show devStep ⟨q2iOf (pre.map (·.query)), devSpec pre⟩ r = _
    rw [devStep]
    simp only [hl, hds]
    rw [stateOf]
    refine congrArg₂ DevState.mk ?_ ?_
    · rw [q2iOf, q2iOf, hU, List.enum_append]
      simp [hq2ilen]
    · rw [devSpec, devSpec, hU, List.enum_append, List.map_append, List.map_append]
      refine congrArg₂ (· ++ ·) ?_ ?_
      · rw [List.map_map]
        refine List.map_congr_left ?_
        rintro ⟨j, qj⟩ hjq
        have hgetj : (uniqueFirst (pre.map (·.query))).get? j = some qj := by
          rw [List.mem_enum_iff_get?] at hjq
          exact hjq
        have hjlt : j < (uniqueFirst (pre.map (·.query))).length := by
          rw [List.get?_eq_some] at hgetj
          exact hgetj.1
        have hqj : qj ≠ r.query := by
          intro he
          exact hUmem (he ▸ List.get?_mem hgetj)
        simp only [Function.comp_apply]
        rw [if_neg (by omega), posSet_append, if_neg (by tauto),
          negSet_append, if_neg (by tauto)]
      · simp only [List.enumFrom, List.map_cons, List.map_nil, if_true]
        have hpos0 : posSet pre r.query = ∅ := posSet_of_not_mem hmem
        have hneg0 : negSet pre r.query = ∅ := negSet_of_not_mem hmem
        rw [posSet_append, negSet_append]
        by_cases hgn : 0 < r.gain
        · rw [if_pos (show r.query = r.query ∧ 0 < r.gain from ⟨rfl, hgn⟩),
            if_neg (show ¬ (r.query = r.query ∧ ¬ 0 < r.gain) by tauto),
            hpos0, hneg0, hq2ilen]
          simp [hgn]
        · rw [if_neg (show ¬ (r.query = r.query ∧ 0 < r.gain) by tauto),
            if_pos (show r.query = r.query ∧ ¬ 0 < r.gain from ⟨rfl, hgn⟩),
            hpos0, hneg0, hq2ilen]
          simp [hgn]

/-- Folding devStep over further rows extends the processed prefix. -/
theorem foldl_devStep (rows : List Row) :
    ∀ pre : List Row, rows.foldl devStep (stateOf pre) = stateOf (pre ++ rows) := by
  induction rows with
  | nil =>
    intro pre
    simp
  | cons r rs ih =>
    intro pre
    rw [List.foldl_cons, devStep_stateOf, ih]
    simp

/-- The dev_samples dictionary the loop builds is exactly the grouping by
query text. -/
theorem buildDevSamples_eq_devSpec (rows : List Row) :
    buildDevSamples rows = devSpec rows := by
  have h0 : (⟨[], []⟩ : DevState) = stateOf [] := by
    simp [stateOf, q2iOf, devSpec, uniqueFirst, posSet, negSet]
  rw [buildDevSamples, h0, foldl_devStep]
  simp [stateOf]

/-- C10: the dev reranking evaluator input groups the dev rows by query
text, ids assigned in first-appearance order, not by query_id: the
dictionary equals one entry per distinct query text, holding the positive
title set (gain > 0) and the negative title set (gain not positive, which
for table gains means gain = 0), duplicate titles collapsing in each set;
rows with distinct query_id but equal query text land in one entry. -/
theorem claim_C10_dev_grouping (rows : List Row)
    (hg : ∀ r ∈ rows, r.gain = esci_label2gain r.esci_label) :
    buildDevSamples rows = devSpec rows ∧
    ∀ q, negSet rows q =
      ((rows.filter (fun r => r.query == q && decide (r.gain = 0))).map
        (·.product_title)).toFinset := by
  refine ⟨buildDevSamples_eq_devSpec rows, ?_⟩
  intro q
  unfold negSet
  have hb : ∀ r ∈ rows,
      (r.query == q && !(decide (0 < r.gain))) = (r.query == q && decide (r.gain = 0)) := by
    intro r hr
    have hgr := hg r hr
    cases hl : r.esci_label <;> rw [hl] at hgr <;> rw [hgr] <;>
      norm_num [esci_label2gain]
  rw [List.filter_congr hb]

/-- Witness for C10: two rows with distinct query ids and equal query
text. -/
theorem claim_C10_dev_grouping_witness :
    buildDevSamples rowsC10 = devSpec rowsC10 ∧
    negSet rowsC10 "same" =
      ((rowsC10.filter (fun r => r.query == "same" && decide (r.gain = 0))).map
        (·.product_title)).toFinset :=
  ⟨(claim_C10_dev_grouping rowsC10 (by decide)).1,
   (claim_C10_dev_grouping rowsC10 (by decide)).2 "same"⟩

/-- C3 amended: the undefined test_samples read of the final evaluation
does sit after model.fit and model.save in program order, and with the two
earlier slips repaired (the missing target column in augment_text and the
bracketless tuple column selection) the branch runs fit, then save, then
stops at NameError test_samples; but the branch as written stops at the
augment_text AttributeError before any training, so the model is never
trained or saved. -/
theorem claim_C3_amended :
    runStmts usProgram initialEnv [] = ([], some (.attributeError "target")) ∧
    runStmts usProgramRepaired initialEnv [] =
      ([UsEvent.fit, UsEvent.save], some (.nameError "test_samples")) :=
  ⟨by decide, by decide⟩

end CS228
